import Mathlib

/-!
Verification of the seat-position extraction pipeline of the `smuseats`
repository (scripts/detect-seats.mjs, scripts/refine-seats.mjs,
scripts/detect-seats-ocr.mjs and the boundary-masking script).

The JavaScript sources are shallowly embedded: pixel buffers become
functions `Nat → Bool` indexed by `y * w + x`, candidate records become
structures over `Nat`, the imperative loops become fuel-indexed
structural recursions (the fuel supplied at every call site is an upper
bound on the number of iterations the JavaScript loop performs, so the
fuel never runs out), and comparisons of `Math.hypot`/ratio expressions
against constants are carried out exactly on squared integers
(`Math.hypot(dx, dy) < c` for integer inputs is `dx² + dy² < c²`).

`Math.round(num / den)` on nonnegative operands is `⌊num/den + 1/2⌋`,
embedded as `jsRound`.
-/

set_option maxHeartbeats 1000000

namespace SmuSeats

/-- JavaScript `Math.round(num / den)` for a nonnegative numerator and a
positive denominator: round-half-up, `⌊num/den + 1/2⌋ = ⌊(2num+den)/(2den)⌋`. -/
def jsRound (num den : Nat) : Nat := (2 * num + den) / (2 * den)

/-- Absolute difference of two naturals (`Math.abs(x - y)`). -/
def absDiff (x y : Nat) : Nat := (x - y) + (y - x)

/-- Candidate seat position as used by detect-seats.mjs phases 5–6 and by
refine-seats.mjs: centre `(x, y)` and blob-support weight `n`. -/
structure Cand where
  x : Nat
  y : Nat
  n : Nat
deriving DecidableEq

/-- Squared Euclidean distance between two candidates.
`Math.hypot(a.x - b.x, a.y - b.y) < c` on integer coordinates is exactly
`d2 a b < c * c`. -/
def d2 (a b : Cand) : Nat :=
  absDiff a.x b.x * absDiff a.x b.x + absDiff a.y b.y * absDiff a.y b.y

/-- Position of a candidate, forgetting the support weight. -/
def posn (c : Cand) : Nat × Nat := (c.x, c.y)

/-- Comparator `(a, b) => a.y - b.y || a.x - b.x` of the JavaScript sorts:
ascending `y`, ties broken by ascending `x`. -/
def leYX (a b : Cand) : Bool :=
  decide (a.y < b.y) || (decide (a.y = b.y) && decide (a.x ≤ b.x))

/-! ### Stable sorting

JavaScript `Array.prototype.sort` is a stable comparison sort; the
embedding uses a structural stable insertion sort (`insSort`), which
agrees with any stable sort for the total preorders used here. -/

/-- Insert `a` in front of the first element `b` with `le a b`. -/
def insertSorted (le : α → α → Bool) (a : α) : List α → List α
  | [] => [a]
  | b :: t => if le a b then a :: b :: t else b :: insertSorted le a t

/-- Stable insertion sort. -/
def insSort (le : α → α → Bool) : List α → List α
  | [] => []
  | a :: t => insertSorted le a (insSort le t)

theorem insertSorted_perm (le : α → α → Bool) (a : α) :
    ∀ l : List α, List.Perm (insertSorted le a l) (a :: l) := by
  intro l
  induction l with
  | nil => exact List.Perm.refl _
  | cons b t ih =>
    rw [insertSorted]
    by_cases h : le a b
    · simp [h]
    · simp only [h, if_false]
      exact (List.Perm.cons b ih).trans (List.Perm.swap a b t)

theorem insSort_perm (le : α → α → Bool) : ∀ l : List α, List.Perm (insSort le l) l := by
  intro l
  induction l with
  | nil => exact List.Perm.refl _
  | cons a t ih =>
    rw [insSort]
    exact (insertSorted_perm le a (insSort le t)).trans (List.Perm.cons a ih)

theorem insSort_length (le : α → α → Bool) (l : List α) :
    (insSort le l).length = l.length := (insSort_perm le l).length_eq

theorem insertSorted_pairwise (le : α → α → Bool)
    (htrans : ∀ a b c, le a b = true → le b c = true → le a c = true)
    (htotal : ∀ a b, le a b = true ∨ le b a = true) (a : α) :
    ∀ l : List α, l.Pairwise (fun x y => le x y = true) →
      (insertSorted le a l).Pairwise (fun x y => le x y = true) := by
  intro l
  induction l with
  | nil => intro _; exact List.pairwise_singleton _ _
  | cons b t ih =>
    intro hp
    obtain ⟨hb, ht⟩ := List.pairwise_cons.mp hp
    rw [insertSorted]
    by_cases h : le a b
    · simp only [h, if_true]
      refine List.pairwise_cons.mpr ⟨?_, hp⟩
      intro c hc
      rcases List.mem_cons.mp hc with rfl | hc'
      · exact h
      · exact htrans a b c h (hb c hc')
    · simp only [h, if_false]
      refine List.pairwise_cons.mpr ⟨?_, ih ht⟩
      intro c hc
      have hc2 : c = a ∨ c ∈ t := by
        have := (insertSorted_perm le a t).mem_iff.mp hc
        simpa using this
      rcases hc2 with rfl | hc'
      · rcases htotal c b with h1 | h1
        · exact absurd h1 h
        · exact h1
      · exact hb c hc'

theorem insSort_pairwise (le : α → α → Bool)
    (htrans : ∀ a b c, le a b = true → le b c = true → le a c = true)
    (htotal : ∀ a b, le a b = true ∨ le b a = true) :
    ∀ l : List α, (insSort le l).Pairwise (fun x y => le x y = true) := by
  intro l
  induction l with
  | nil => exact List.Pairwise.nil
  | cons a t ih => exact insertSorted_pairwise le htrans htotal a _ ih

/-! ### detect-seats.mjs, Phase 5 (clustering) and Phase 6 (de-duplication)

Both phases run the same greedy used-set loop over the (y,x)-sorted list:
the first unused element seeds a group, absorbs every later unused element
within the radius of the seed, and the group is replaced by one record
whose position is `Math.round` of the arithmetic mean of the member
positions.  Phase 5 sets `n` to the member count; Phase 6 sums the
members' `n` fields.  The loop is embedded with the tail of the list as
the recursive argument (absorbed elements are filtered out), which is
exactly what the `used` index set achieves in the source. -/

/-- Phase 5 of `detectSeats`: cluster text blobs within `Math.sqrt < r`
(`r2 = r * r`); the merged record's `n` counts the members. -/
def clusterPass (r2 : Nat) : Nat → List Cand → List Cand
  | 0, l => l
  | _, [] => []
  | fuel + 1, c :: rest =>
    let near := rest.filter (fun t => decide (d2 c t < r2))
    let far := rest.filter (fun t => !decide (d2 c t < r2))
    ⟨jsRound (c.x + (near.map Cand.x).sum) (near.length + 1),
     jsRound (c.y + (near.map Cand.y).sum) (near.length + 1),
     near.length + 1⟩ :: clusterPass r2 fuel far

/-- Phase 6 of `detectSeats` (and Phase 6 of `detectSeatsFromImage` in
refine-seats.mjs): merge clusters within the merge radius; the merged
record's position is `Math.round` of the plain mean of the member
positions and its `n` is the sum of the members' `n`. -/
def dedupPass (r2 : Nat) : Nat → List Cand → List Cand
  | 0, l => l
  | _, [] => []
  | fuel + 1, c :: rest =>
    let near := rest.filter (fun t => decide (d2 c t < r2))
    let far := rest.filter (fun t => !decide (d2 c t < r2))
    ⟨jsRound (c.x + (near.map Cand.x).sum) (near.length + 1),
     jsRound (c.y + (near.map Cand.y).sum) (near.length + 1),
     c.n + (near.map Cand.n).sum⟩ :: dedupPass r2 fuel far

/-- Phase 6 of `detectSeats` including the preceding `(y, x)` sort;
`FINAL_MERGE_RADIUS = 40`, so the squared radius is `1600`. -/
def detectDedup (clusters : List Cand) : List Cand :=
  let sorted := insSort leYX clusters
  dedupPass 1600 sorted.length sorted

/-! ### refine-seats.mjs, `refineSeatList` Step A: iterative closest-pair merge

The `while (merged)` loop scans all index pairs `i < j`, keeps the pair of
strictly smallest `Math.hypot` distance (first such pair in scan order),
and if that distance is below `MERGE_DIST = 50` replaces `seats[i]` by the
pixel-count-weighted centroid and splices out `seats[j]`.  Each merge
shortens the list by one, so `seats.length` is enough fuel. -/

/-- Index pairs `(i, j)` with `i < j < len`, in the scan order of the
nested `for` loops (`i` outer from `0`, `j` inner from `i + 1`). -/
def pairIdxs (len : Nat) : List (Nat × Nat) :=
  (List.range len).flatMap (fun i => (List.range' (i + 1) (len - (i + 1))).map (fun j => (i, j)))

/-- Accumulator step of the closest-pair scan: keep the incumbent unless
the new pair is strictly closer (the source compares `d < bestD`). -/
def minStep (seats : List Cand) (best : Option (Nat × Nat × Nat)) (ij : Nat × Nat) :
    Option (Nat × Nat × Nat) :=
  let d := d2 (seats.getD ij.1 ⟨0, 0, 0⟩) (seats.getD ij.2 ⟨0, 0, 0⟩)
  match best with
  | none => some (ij.1, ij.2, d)
  | some (bi, bj, bd) => if d < bd then some (ij.1, ij.2, d) else some (bi, bj, bd)

/-- Closest pair search of `refineSeatList` Step A: returns
`some (bestI, bestJ, bestD²)` for a list with at least two entries,
`none` otherwise. -/
def minPair (seats : List Cand) : Option (Nat × Nat × Nat) :=
  (pairIdxs seats.length).foldl (minStep seats) none

/-- Step A of `refineSeatList`: repeatedly merge the globally closest pair
while its distance is `< MERGE_DIST = 50` (squared: `2500`); the merged
record is the pixel-count-weighted centroid with summed weight. -/
def mergeLoop : Nat → List Cand → List Cand
  | 0, seats => seats
  | fuel + 1, seats =>
    match minPair seats with
    | none => seats
    | some (i, j, d) =>
      if d < 2500 then
        let a := seats.getD i ⟨0, 0, 0⟩
        let b := seats.getD j ⟨0, 0, 0⟩
        let tn := a.n + b.n
        mergeLoop fuel
          ((seats.set i ⟨jsRound (a.x * a.n + b.x * b.n) tn,
                         jsRound (a.y * a.n + b.y * b.n) tn, tn⟩).eraseIdx j)
      else seats

/-! ### refine-seats.mjs, `scoreSeat` / `medianNN` / Step C pruning

All distance values in the source are `Math.hypot` results compared via
ratios against the median nearest-neighbour distance; both sides are
nonnegative, so every comparison is carried out exactly on squared
integers (`d/m ≥ 0.5 ↔ 4d² ≥ m²`, `d/m ≤ 2.5 ↔ 4d² ≤ 25m²`,
`d/m < 0.3 ↔ 100d² < 9m²`).  `medianNN` therefore returns the squared
median value, with the `|| 80` fallback becoming `6400 = 80²` (in
JavaScript both `undefined` and `0` fall back to `80`).  `scoreSeat` is
only ever called on lists whose members are pairwise at distance
`≥ MERGE_DIST > 0`, so the object-identity test `s !== seat` coincides
with removing one value-equal occurrence (`List.erase`). -/

/-- Median (squared) nearest-neighbour distance of `refineSeatList`
Step B; `6400` is the squared `|| 80` fallback. -/
def medianNN (list : List Cand) : Nat :=
  let dists := insSort (fun a b => decide (a ≤ b)) (list.filterMap (fun s =>
    match (list.erase s).map (fun t => d2 s t) with
    | [] => none
    | d :: ds => some (ds.foldl min d)))
  let v := dists.getD (dists.length / 2) 0
  if v = 0 then 6400 else v

/-- Fitness score of one seat against the current list (`scoreSeat` in
refine-seats.mjs), with squared-distance comparisons; `m2` is the squared
median nearest-neighbour distance. -/
def scoreSeat (seat : Cand) (all : List Cand) (m2 : Nat) : Int :=
  let dists := insSort (fun a b => decide (a ≤ b)) ((all.erase seat).map (fun o => d2 seat o))
  match dists with
  | [] => -1000
  | nn1 :: _ =>
    let k := min 5 dists.length
    let base := (dists.take k).foldl
      (fun sc d =>
        if 4 * d ≥ m2 ∧ 4 * d ≤ 25 * m2 then sc + 10
        else if 100 * d < 9 * m2 then sc - 20
        else sc - 5) 0
    let s1 := base + (if 100 * nn1 < 9 * m2 then (-40 : Int) else 0)
    let rowCount := ((all.erase seat).filter (fun s => decide (absDiff s.y seat.y ≤ 35))).length
    let colCount := ((all.erase seat).filter
      (fun s => decide (absDiff s.x seat.x ≤ 30) && decide (absDiff s.y seat.y > 35))).length
    s1 + rowCount * 3 + colCount * 2 + min (if seat.n = 0 then 1 else seat.n) 3 * 2

/-- Score-ascending comparator used by the Step C sort
(`seats.sort((a, b) => a._score - b._score)`). -/
def byScore (all : List Cand) (m2 : Nat) (a b : Cand) : Bool :=
  decide (scoreSeat a all m2 ≤ scoreSeat b all m2)

/-- Step C of `refineSeatList`: while over capacity, sort by the scores
computed against the current list and shift off the lowest-scoring seat. -/
def pruneLoop (capacity : Nat) : Nat → List Cand → List Cand
  | 0, seats => seats
  | fuel + 1, seats =>
    if seats.length ≤ capacity then seats
    else
      let m2 := medianNN seats
      pruneLoop capacity fuel ((insSort (byScore seats m2) seats).drop 1)

/-- `refineSeatList(candidates, capacity)` of refine-seats.mjs: early
return on `length ≤ 1`, normalise `n` by `s.n || 1`, iteratively merge
pairs closer than `MERGE_DIST = 50`, then prune to `capacity`. -/
def refineSeatList (candidates : List Cand) (capacity : Nat) : List Cand :=
  if candidates.length ≤ 1 then candidates
  else
    let seats := candidates.map (fun s => ⟨s.x, s.y, if s.n = 0 then 1 else s.n⟩)
    let merged := mergeLoop seats.length seats
    pruneLoop capacity merged.length merged

/-! ### Facts about the closest-pair scan -/

theorem absDiff_comm (x y : Nat) : absDiff x y = absDiff y x := Nat.add_comm _ _

theorem d2_comm (a b : Cand) : d2 a b = d2 b a := by
  rw [d2, d2, absDiff_comm a.x, absDiff_comm a.y]

theorem jsRound_one (x : Nat) : jsRound x 1 = x := by
  rw [jsRound]; omega

theorem pairIdxs_mem {len i j : Nat} : (i, j) ∈ pairIdxs len ↔ i < j ∧ j < len := by
  simp only [pairIdxs, List.mem_flatMap, List.mem_map, List.mem_range, List.mem_range',
    Prod.mk.injEq]
  constructor
  · rintro ⟨a, ha, b, ⟨k, hk, hbk⟩, rfl, rfl⟩
    omega
  · rintro ⟨hij, hj⟩
    exact ⟨i, by omega, j, ⟨j - (i + 1), by omega, by omega⟩, rfl, rfl⟩

theorem minFold_ne_none (seats : List Cand) :
    ∀ (ps : List (Nat × Nat)) (acc : Option (Nat × Nat × Nat)),
      ps.foldl (minStep seats) acc = none → acc = none ∧ ps = [] := by
  intro ps
  induction ps with
  | nil => intro acc h; exact ⟨h, rfl⟩
  | cons p t ih =>
    intro acc h
    obtain ⟨h1, -⟩ := ih _ h
    exfalso
    rcases acc with _ | ⟨bi, bj, bd⟩ <;> simp only [minStep] at h1
    · exact Option.noConfusion h1
    · split at h1 <;> exact Option.noConfusion h1

theorem minFold_sound (seats : List Cand) :
    ∀ (ps : List (Nat × Nat)) (acc : Option (Nat × Nat × Nat)) (i j d : Nat),
      ps.foldl (minStep seats) acc = some (i, j, d) →
      acc = some (i, j, d) ∨
        ((i, j) ∈ ps ∧ d = d2 (seats.getD i ⟨0, 0, 0⟩) (seats.getD j ⟨0, 0, 0⟩)) := by
  intro ps
  induction ps with
  | nil => intro acc i j d h; exact Or.inl h
  | cons p t ih =>
    intro acc i j d h
    rcases ih _ _ _ _ h with hstep | ⟨hmem, hd⟩
    · rcases acc with _ | ⟨bi, bj, bd⟩ <;> simp only [minStep] at hstep
      · obtain ⟨rfl, rfl, rfl⟩ : p.1 = i ∧ p.2 = j ∧
            d2 (seats.getD p.1 ⟨0, 0, 0⟩) (seats.getD p.2 ⟨0, 0, 0⟩) = d := by
          injection hstep with h'; injection h' with h1 h2; injection h2 with h2 h3
          exact ⟨h1, h2, h3⟩
        exact Or.inr ⟨List.mem_cons_self _ _, rfl⟩
      · split at hstep
        · obtain ⟨rfl, rfl, rfl⟩ : p.1 = i ∧ p.2 = j ∧
              d2 (seats.getD p.1 ⟨0, 0, 0⟩) (seats.getD p.2 ⟨0, 0, 0⟩) = d := by
            injection hstep with h'; injection h' with h1 h2; injection h2 with h2 h3
            exact ⟨h1, h2, h3⟩
          exact Or.inr ⟨List.mem_cons_self _ _, rfl⟩
        · left
          injection hstep with h'; injection h' with h1 h2; injection h2 with h2 h3
          rw [← h1, ← h2, ← h3]
    · exact Or.inr ⟨List.mem_cons_of_mem _ hmem, hd⟩

theorem minStep_none (seats : List Cand) (p : Nat × Nat) :
    minStep seats none p =
      some (p.1, p.2, d2 (seats.getD p.1 ⟨0, 0, 0⟩) (seats.getD p.2 ⟨0, 0, 0⟩)) := rfl

theorem minStep_some (seats : List Cand) (p : Nat × Nat) (bi bj bd : Nat) :
    minStep seats (some (bi, bj, bd)) p =
      if d2 (seats.getD p.1 ⟨0, 0, 0⟩) (seats.getD p.2 ⟨0, 0, 0⟩) < bd
      then some (p.1, p.2, d2 (seats.getD p.1 ⟨0, 0, 0⟩) (seats.getD p.2 ⟨0, 0, 0⟩))
      else some (bi, bj, bd) := rfl

theorem minFold_min (seats : List Cand) :
    ∀ (ps : List (Nat × Nat)) (acc : Option (Nat × Nat × Nat)) (i j d : Nat),
      ps.foldl (minStep seats) acc = some (i, j, d) →
      (∀ p ∈ ps, d ≤ d2 (seats.getD p.1 ⟨0, 0, 0⟩) (seats.getD p.2 ⟨0, 0, 0⟩)) ∧
      (∀ bi bj bd, acc = some (bi, bj, bd) → d ≤ bd) := by
  intro ps
  induction ps with
  | nil =>
    intro acc i j d h
    rw [List.foldl_nil] at h
    refine ⟨fun p hp => absurd hp (List.not_mem_nil p), fun bi bj bd hacc => ?_⟩
    rw [h] at hacc
    injection hacc with h'; injection h' with h1 h2; injection h2 with h2 h3
    omega
  | cons p t ih =>
    intro acc i j d h
    rw [List.foldl_cons] at h
    obtain ⟨htail, hstep⟩ := ih _ _ _ _ h
    have hdp : d ≤ d2 (seats.getD p.1 ⟨0, 0, 0⟩) (seats.getD p.2 ⟨0, 0, 0⟩) := by
      rcases acc with _ | ⟨bi, bj, bd⟩
      · exact hstep p.1 p.2 _ (minStep_none seats p)
      · by_cases hlt : d2 (seats.getD p.1 ⟨0, 0, 0⟩) (seats.getD p.2 ⟨0, 0, 0⟩) < bd
        · exact hstep p.1 p.2 _ ((minStep_some seats p bi bj bd).trans (if_pos hlt))
        · have : d ≤ bd := hstep bi bj bd ((minStep_some seats p bi bj bd).trans (if_neg hlt))
          omega
    refine ⟨fun q hq => ?_, fun bi bj bd hacc => ?_⟩
    · rcases List.mem_cons.mp hq with rfl | hq'
      · exact hdp
      · exact htail q hq'
    · subst hacc
      by_cases hlt : d2 (seats.getD p.1 ⟨0, 0, 0⟩) (seats.getD p.2 ⟨0, 0, 0⟩) < bd
      · have : d ≤ d2 (seats.getD p.1 ⟨0, 0, 0⟩) (seats.getD p.2 ⟨0, 0, 0⟩) :=
          hstep p.1 p.2 _ ((minStep_some seats p bi bj bd).trans (if_pos hlt))
        omega
      · exact hstep bi bj bd ((minStep_some seats p bi bj bd).trans (if_neg hlt))

theorem minPair_none {seats : List Cand} (h : minPair seats = none) : seats.length ≤ 1 := by
  obtain ⟨-, hemp⟩ := minFold_ne_none seats _ _ h
  by_contra hlen
  have : ((0, 1) : Nat × Nat) ∈ pairIdxs seats.length := pairIdxs_mem.mpr (by omega)
  rw [hemp] at this
  exact absurd this (List.not_mem_nil _)

theorem minPair_some {seats : List Cand} {i j d : Nat} (h : minPair seats = some (i, j, d)) :
    i < j ∧ j < seats.length ∧
    d = d2 (seats.getD i ⟨0, 0, 0⟩) (seats.getD j ⟨0, 0, 0⟩) ∧
    ∀ i' j', i' < j' → j' < seats.length →
      d ≤ d2 (seats.getD i' ⟨0, 0, 0⟩) (seats.getD j' ⟨0, 0, 0⟩) := by
  rcases minFold_sound seats _ _ _ _ _ h with hnone | ⟨hmem, hd⟩
  · exact Option.noConfusion hnone
  · obtain ⟨hij, hj⟩ := pairIdxs_mem.mp hmem
    refine ⟨hij, hj, hd, fun i' j' hij' hj' => ?_⟩
    exact (minFold_min seats _ _ _ _ _ h).1 (i', j') (pairIdxs_mem.mpr ⟨hij', hj'⟩)

/-! ### Behaviour of the Step A merge loop and Step C pruning -/

theorem mergeLoop_of_pairwise {l : List Cand}
    (h : l.Pairwise (fun a b => 2500 ≤ d2 a b)) : ∀ fuel, mergeLoop fuel l = l := by
  intro fuel
  cases fuel with
  | zero => rfl
  | succ n =>
    simp only [mergeLoop]
    cases hm : minPair l with
    | none => rfl
    | some t =>
      obtain ⟨i, j, d⟩ := t
      obtain ⟨hij, hjl, hd, -⟩ := minPair_some hm
      have hi : i < l.length := by omega
      have hfar : 2500 ≤ d2 (l.getD i ⟨0, 0, 0⟩) (l.getD j ⟨0, 0, 0⟩) := by
        rw [List.getD_eq_getElem l _ hi, List.getD_eq_getElem l _ hjl]
        exact List.pairwise_iff_getElem.mp h i j hi hjl hij
      have hnlt : ¬ d < 2500 := by omega
      simp only [hnlt, if_false]

theorem mergeLoop_pairwise :
    ∀ (fuel : Nat) (l : List Cand), l.length ≤ fuel →
      (mergeLoop fuel l).Pairwise (fun a b => 2500 ≤ d2 a b) := by
  intro fuel
  induction fuel with
  | zero =>
    intro l h
    rw [List.length_eq_zero.mp (Nat.le_zero.mp h)]
    exact List.Pairwise.nil
  | succ n ih =>
    intro l h
    simp only [mergeLoop]
    cases hm : minPair l with
    | none =>
      have hlen := minPair_none hm
      cases l with
      | nil => exact List.Pairwise.nil
      | cons a t =>
        cases t with
        | nil => exact List.pairwise_singleton _ _
        | cons b t2 => simp at hlen
    | some t =>
      obtain ⟨i, j, d⟩ := t
      obtain ⟨hij, hjl, hd, hmin⟩ := minPair_some hm
      by_cases hlt : d < 2500
      · simp only [hlt, if_true]
        apply ih
        rw [List.length_eraseIdx_of_lt (by simpa using hjl)]
        simp only [List.length_set]
        omega
      · simp only [hlt, if_false]
        rw [List.pairwise_iff_getElem]
        intro a b ha hb hab
        have := hmin a b hab hb
        rw [List.getD_eq_getElem l _ ha, List.getD_eq_getElem l _ hb] at this
        omega

theorem pruneLoop_of_le {l : List Cand} {cap : Nat} (h : l.length ≤ cap) :
    ∀ fuel, pruneLoop cap fuel l = l := by
  intro fuel
  cases fuel with
  | zero => rfl
  | succ n => simp [pruneLoop, h]

theorem pruneLoop_length {cap : Nat} :
    ∀ (fuel : Nat) (l : List Cand), l.length - cap ≤ fuel →
      (pruneLoop cap fuel l).length = min l.length cap := by
  intro fuel
  induction fuel with
  | zero =>
    intro l h
    have hle : l.length ≤ cap := by omega
    rw [pruneLoop]
    simp [Nat.min_def, hle]
  | succ n ih =>
    intro l h
    simp only [pruneLoop]
    by_cases hc : l.length ≤ cap
    · simp [hc, Nat.min_def]
    · simp only [hc, if_false]
      rw [ih _ (by simp [List.length_drop, insSort_length]; omega)]
      simp only [List.length_drop, insSort_length]
      rw [Nat.min_eq_right (by omega), Nat.min_eq_right (by omega)]

theorem pruneLoop_pairwise {cap : Nat} {R : Cand → Cand → Prop}
    (hsymm : ∀ {x y : Cand}, R x y → R y x) :
    ∀ (fuel : Nat) (l : List Cand), l.Pairwise R → (pruneLoop cap fuel l).Pairwise R := by
  intro fuel
  induction fuel with
  | zero => intro l h; exact h
  | succ n ih =>
    intro l h
    simp only [pruneLoop]
    by_cases hc : l.length ≤ cap
    · simpa [hc] using h
    · simp only [hc, if_false]
      apply ih
      have hsorted : (insSort (byScore l (medianNN l)) l).Pairwise R :=
        ((insSort_perm (byScore l (medianNN l)) l).pairwise_iff hsymm).mpr h
      rw [List.drop_one]
      exact List.Pairwise.sublist (List.tail_sublist _) hsorted

/-! ### Claims C1, C2, C5, C6 -/

/-- C1 (counterexample).  The claim states that whenever the candidate
pool passed to `refineSeatList` has at least `capacity` entries, the
output has length exactly `capacity`.  A pool of three coincident
candidates with `capacity = 3` is first collapsed by the internal
`MERGE_DIST = 50` duplicate merge, so only one seat is returned: the
output length is `1`, not `3`. -/
theorem c1_counterexample :
    ([⟨0, 0, 1⟩, ⟨0, 0, 1⟩, ⟨0, 0, 1⟩] : List Cand).length = 3 ∧
    (refineSeatList [⟨0, 0, 1⟩, ⟨0, 0, 1⟩, ⟨0, 0, 1⟩] 3).length = 1 := by decide

/-- C1 (amended).  For a known capacity `≥ 1`, and for candidate pools on
which the internal duplicate merge is a no-op — all pairwise distances at
least `MERGE_DIST = 50`, i.e. squared distance `≥ 2500` — `refineSeatList`
returns exactly `capacity` seats when the pool has at least `capacity`
entries, and returns the full pool (every candidate position surviving,
in order) when the pool is smaller than `capacity`. -/
theorem c1_refine_capacity (candidates : List Cand) (capacity : Nat)
    (hcap : 1 ≤ capacity)
    (hfar : candidates.Pairwise (fun a b => 2500 ≤ d2 a b)) :
    (capacity ≤ candidates.length →
      (refineSeatList candidates capacity).length = capacity) ∧
    (candidates.length < capacity →
      (refineSeatList candidates capacity).map posn = candidates.map posn) := by
  have hpairmap : (candidates.map
      (fun s => (⟨s.x, s.y, if s.n = 0 then 1 else s.n⟩ : Cand))).Pairwise
      (fun a b => 2500 ≤ d2 a b) := List.pairwise_map.mpr hfar
  constructor
  · intro hge
    rw [refineSeatList]
    by_cases hlen : candidates.length ≤ 1
    · simp only [hlen, if_true]
      omega
    · simp only [hlen, if_false]
      rw [mergeLoop_of_pairwise hpairmap]
      rw [pruneLoop_length _ _ (by omega)]
      simp only [List.length_map]
      omega
  · intro hlt
    rw [refineSeatList]
    by_cases hlen : candidates.length ≤ 1
    · simp only [hlen, if_true]
    · simp only [hlen, if_false]
      rw [mergeLoop_of_pairwise hpairmap]
      rw [pruneLoop_of_le (by simp only [List.length_map]; omega)]
      rw [List.map_map]
      rfl

/-- C1 (witness). -/
theorem c1_refine_capacity_witness :
    (refineSeatList [⟨0, 0, 1⟩, ⟨100, 0, 1⟩] 1).length = 1 :=
  (c1_refine_capacity [⟨0, 0, 1⟩, ⟨100, 0, 1⟩] 1 (by decide) (by decide)).1 (by decide)

/-- C2 (counterexample).  The claim states that with
`candidates.length = capacity` the refiner returns the input unchanged,
never removing a point.  Two coincident candidates with `capacity = 2`
are merged by the internal `MERGE_DIST = 50` duplicate merge, so a point
is removed: the output has length `1`. -/
theorem c2_counterexample :
    ([⟨0, 0, 1⟩, ⟨0, 0, 1⟩] : List Cand).length = 2 ∧
    (refineSeatList [⟨0, 0, 1⟩, ⟨0, 0, 1⟩] 2).length = 1 := by decide

/-- C2 (amended).  If every pair of candidates is at distance at least
`MERGE_DIST = 50` (squared `≥ 2500`) and `candidates.length ≤ capacity`,
`refineSeatList` returns the input positions unchanged (same points, same
order — no removal, merge, or move). -/
theorem c2_refine_identity (candidates : List Cand) (capacity : Nat)
    (hfar : candidates.Pairwise (fun a b => 2500 ≤ d2 a b))
    (hle : candidates.length ≤ capacity) :
    (refineSeatList candidates capacity).map posn = candidates.map posn := by
  have hpairmap : (candidates.map
      (fun s => (⟨s.x, s.y, if s.n = 0 then 1 else s.n⟩ : Cand))).Pairwise
      (fun a b => 2500 ≤ d2 a b) := List.pairwise_map.mpr hfar
  rw [refineSeatList]
  by_cases hlen : candidates.length ≤ 1
  · simp only [hlen, if_true]
  · simp only [hlen, if_false]
    rw [mergeLoop_of_pairwise hpairmap]
    rw [pruneLoop_of_le (by simp only [List.length_map]; omega)]
    rw [List.map_map]
    rfl

/-- C2 (witness). -/
theorem c2_refine_identity_witness :
    (refineSeatList [⟨0, 0, 1⟩, ⟨100, 0, 1⟩] 2).map posn =
      ([⟨0, 0, 1⟩, ⟨100, 0, 1⟩] : List Cand).map posn :=
  c2_refine_identity [⟨0, 0, 1⟩, ⟨100, 0, 1⟩] 2 (by decide) (by decide)

/-- C5 (counterexample).  The claim states that two candidates at
distance `d < radius` merge into one candidate at their
pixel-count-weighted centroid.  In the Phase 6 de-duplication of
`detectSeats` (merge radius 40, squared 1600), candidates `(0,0)` with
weight 1 and `(10,0)` with weight 3 merge at the plain mean `x = 5`, not
the weighted centroid `x = Math.round(30/4) = 8`. -/
theorem c5_counterexample :
    d2 ⟨0, 0, 1⟩ ⟨10, 0, 3⟩ < 1600 ∧
    dedupPass 1600 2 [⟨0, 0, 1⟩, ⟨10, 0, 3⟩] = [⟨5, 0, 4⟩] ∧
    jsRound (0 * 1 + 10 * 3) (1 + 3) = 8 ∧
    dedupPass 1600 2 [⟨0, 0, 1⟩, ⟨10, 0, 3⟩] ≠
      [⟨jsRound (0 * 1 + 10 * 3) (1 + 3), jsRound (0 * 1 + 0 * 3) (1 + 3), 1 + 3⟩] := by
  decide

/-- C5 (amended).  For a pair of candidates: in `refineSeatList`'s
Step A merge (radius 50, squared 2500) a pair closer than the radius is
replaced by exactly one candidate at the pixel-count-weighted centroid
with summed weight, and a pair at or beyond the radius stays distinct;
in the Phase 6 de-duplication of `detectSeats` (parametric squared
radius `r2`) a pair closer than the radius is replaced by exactly one
candidate at the rounded plain mean of the two positions with summed
weight, and a pair at or beyond the radius stays distinct. -/
theorem c5_pair_merge (a b : Cand) (r2 : Nat) :
    (d2 a b < 2500 →
      mergeLoop 2 [a, b] =
        [⟨jsRound (a.x * a.n + b.x * b.n) (a.n + b.n),
          jsRound (a.y * a.n + b.y * b.n) (a.n + b.n), a.n + b.n⟩]) ∧
    (2500 ≤ d2 a b → mergeLoop 2 [a, b] = [a, b]) ∧
    (d2 a b < r2 →
      dedupPass r2 2 [a, b] =
        [⟨jsRound (a.x + b.x) (1 + 1), jsRound (a.y + b.y) (1 + 1), a.n + b.n⟩]) ∧
    (r2 ≤ d2 a b → dedupPass r2 2 [a, b] = [a, b]) := by
  have hmp : minPair [a, b] = some (0, 1, d2 a b) := rfl
  refine ⟨fun hlt => ?_, fun hge => ?_, fun hlt => ?_, fun hge => ?_⟩
  · show mergeLoop 2 [a, b] = _
    simp only [mergeLoop, hmp, hlt, if_true]
    rfl
  · simp only [mergeLoop, hmp, Nat.not_lt.mpr hge, if_false]
  · simp only [dedupPass, hlt, decide_true_eq_true, List.filter_cons, List.filter_nil]
    simp [hlt]
  · simp [dedupPass, Nat.not_lt.mpr hge, jsRound_one]

/-- C5 (witness). -/
theorem c5_pair_merge_witness :
    mergeLoop 2 [⟨0, 0, 1⟩, ⟨10, 0, 3⟩] =
      [⟨jsRound (0 * 1 + 10 * 3) (1 + 3), jsRound (0 * 1 + 0 * 3) (1 + 3), 1 + 3⟩] :=
  (c5_pair_merge ⟨0, 0, 1⟩ ⟨10, 0, 3⟩ 1600).1 (by decide)

/-- C6 (counterexample).  The claim states that after the de-duplication
stage no two seats lie closer than the merge radius.  In the Phase 6
de-duplication of `detectSeats` (radius 40, squared 1600) the inputs
`(0,0), (39,0), (41,0)` produce `(20,0)` and `(41,0)`, which are only 21
pixels apart — closer than the radius. -/
theorem c6_counterexample :
    detectDedup [⟨0, 0, 1⟩, ⟨39, 0, 1⟩, ⟨41, 0, 1⟩] = [⟨20, 0, 2⟩, ⟨41, 0, 1⟩] ∧
    d2 ⟨20, 0, 2⟩ ⟨41, 0, 1⟩ < 1600 := by decide

/-- C6 (amended).  The output of the capacity-aware refiner
`refineSeatList` always satisfies the minimum-separation invariant: every
two distinct seats in its output are at least `MERGE_DIST = 50` apart
(squared distance `≥ 2500`).  (The single-pass Phase 6 de-duplication of
`detectSeats` does not guarantee this; see the counterexample.) -/
theorem c6_refine_min_separation (candidates : List Cand) (capacity : Nat) :
    (refineSeatList candidates capacity).Pairwise (fun a b => 2500 ≤ d2 a b) := by
  rw [refineSeatList]
  by_cases hlen : candidates.length ≤ 1
  · simp only [hlen, if_true]
    cases candidates with
    | nil => exact List.Pairwise.nil
    | cons a t =>
      cases t with
      | nil => exact List.pairwise_singleton _ _
      | cons b t2 => simp at hlen
  · simp only [hlen, if_false]
    exact pruneLoop_pairwise (fun {x y} hxy => by rwa [d2_comm]) _ _
      (mergeLoop_pairwise _ _ (Nat.le_refl _))

/-! ### Reading order and id assignment

Shared final step of detect-seats.mjs (`detectSeats`) and refine-seats.mjs
(`processRoom`): sort by `(y, x)`, group into rows greedily with the row
tolerance `ROW_TOL = 35` (first unassigned seat seeds a row and absorbs
every other seat within the tolerance of its `y`), sort each row by `x`,
flatten, and assign ids `` `${i + 1}` ``.  The template literal produces
the decimal numeral, embedded as `natDecimal`. -/

/-- Final persisted seat record `{ id, x, y }`. -/
structure SeatRecord where
  id : String
  x : Nat
  y : Nat
deriving DecidableEq

/-- Decimal digit list of `n`, most significant first; the fuel is an
upper bound on the recursion depth (`n + 1` always suffices since the
recursive call is on `n / 10 < n`). -/
def decDigitsAux : Nat → Nat → List Char
  | 0, _ => []
  | fuel + 1, n =>
    if n < 10 then [Nat.digitChar n]
    else decDigitsAux fuel (n / 10) ++ [Nat.digitChar (n % 10)]

/-- Decimal numeral of `n`, as produced by the template literal
`` `${n}` ``. -/
def natDecimal (n : Nat) : String := ⟨decDigitsAux (n + 1) n⟩

/-- Value of a decimal digit string, the left inverse used to prove
`natDecimal` injective. -/
def decVal (l : List Char) : Nat := l.foldl (fun a c => 10 * a + (c.toNat - 48)) 0

theorem digitChar_toNat {d : Nat} (h : d < 10) : (Nat.digitChar d).toNat = 48 + d := by
  interval_cases d <;> decide

theorem decVal_append (l : List Char) (c : Char) :
    decVal (l ++ [c]) = 10 * decVal l + (c.toNat - 48) := by
  rw [decVal, List.foldl_append]
  rfl

theorem decVal_decDigitsAux : ∀ (fuel n : Nat), n < fuel → decVal (decDigitsAux fuel n) = n := by
  intro fuel
  induction fuel with
  | zero => intro n h; omega
  | succ f ih =>
    intro n h
    rw [decDigitsAux]
    by_cases h10 : n < 10
    · simp only [h10, if_true]
      show 10 * 0 + ((Nat.digitChar n).toNat - 48) = n
      rw [digitChar_toNat h10]
      omega
    · simp only [h10, if_false]
      rw [decVal_append, ih (n / 10) (by omega), digitChar_toNat (by omega)]
      omega

theorem natDecimal_injective : Function.Injective natDecimal := by
  intro m n h
  have hd : decDigitsAux (m + 1) m = decDigitsAux (n + 1) n := congrArg String.data h
  have hm := decVal_decDigitsAux (m + 1) m (by omega)
  have hn := decVal_decDigitsAux (n + 1) n (by omega)
  rw [hd, hn] at hm
  exact hm.symm

/-- Greedy row grouping with tolerance `tol` (`ROW_TOL = 35` at the call
sites): the first seat (in `(y, x)` order) seeds a row, absorbs all later
seats within `tol` of its `y`, and each row is sorted by `x`. -/
def rowsOf (tol : Nat) : Nat → List Cand → List (List Cand)
  | 0, _ => []
  | _, [] => []
  | fuel + 1, p :: rest =>
    insSort (fun a b => decide (a.x ≤ b.x))
        (p :: rest.filter (fun o => decide (absDiff o.y p.y ≤ tol))) ::
      rowsOf tol fuel (rest.filter (fun o => !decide (absDiff o.y p.y ≤ tol)))

/-- Reading-order sort of `processRoom` (refine-seats.mjs) and
`detectSeats` (detect-seats.mjs): `(y, x)` sort, row grouping with
tolerance 35, rows flattened. -/
def readingOrder (seats : List Cand) : List Cand :=
  let sorted := insSort leYX seats
  (rowsOf 35 sorted.length sorted).flatten

/-- Sequential string id assignment `` seats.map((s, i) => ({ id: `${i + 1}`, x: s.x, y: s.y })) ``. -/
def assignIds (l : List Cand) : List SeatRecord :=
  l.enum.map (fun is => ⟨natDecimal (is.1 + 1), is.2.x, is.2.y⟩)

theorem rowsOf_flatten_perm (tol : Nat) :
    ∀ (fuel : Nat) (l : List Cand), l.length ≤ fuel →
      List.Perm (rowsOf tol fuel l).flatten l := by
  intro fuel
  induction fuel with
  | zero =>
    intro l h
    rw [List.length_eq_zero.mp (Nat.le_zero.mp h)]
    exact List.Perm.refl _
  | succ f ih =>
    intro l h
    cases l with
    | nil => exact List.Perm.refl _
    | cons p rest =>
      rw [rowsOf, List.flatten_cons]
      refine List.Perm.trans (List.Perm.append (insSort_perm _ _) (ih _ ?_)) ?_
      · have := List.length_filter_le (fun o => !decide (absDiff o.y p.y ≤ tol)) rest
        simp only [List.length_cons] at h
        omega
      · show List.Perm (p :: (_ ++ _)) (p :: rest)
        exact List.Perm.cons p (List.filter_append_perm _ rest)

theorem readingOrder_perm (seats : List Cand) :
    List.Perm (readingOrder seats) seats := by
  rw [readingOrder]
  exact (rowsOf_flatten_perm 35 _ _ (by rw [insSort_length])).trans (insSort_perm _ _)

theorem assignIds_map_id (l : List Cand) :
    (assignIds l).map SeatRecord.id = (List.range l.length).map (fun i => natDecimal (i + 1)) := by
  rw [assignIds, List.map_map]
  have hcomp : (SeatRecord.id ∘ fun is : Nat × Cand =>
      (⟨natDecimal (is.1 + 1), is.2.x, is.2.y⟩ : SeatRecord)) =
      (fun i => natDecimal (i + 1)) ∘ Prod.fst := rfl
  rw [hcomp, ← List.map_map, List.enum, List.enumFrom_map_fst, ← List.range_eq_range']

/-- C9.  The final ordering step sorts seats in reading order (rows by
the `y`-tolerance 35, ascending `x` within a row) and assigns sequential
decimal string ids from `"1"`: on the spec's example the ids are
`"1", "2", "3"`; in general the output is a permutation of the surviving
seats, the id list is exactly the numerals of `1..n`, and the ids are
pairwise distinct. -/
theorem c9_reading_order :
    (assignIds (readingOrder [⟨10, 100, 1⟩, ⟨200, 102, 1⟩, ⟨15, 300, 1⟩]) =
      [⟨"1", 10, 100⟩, ⟨"2", 200, 102⟩, ⟨"3", 15, 300⟩]) ∧
    (∀ seats : List Cand, List.Perm (readingOrder seats) seats) ∧
    (∀ seats : List Cand, (assignIds (readingOrder seats)).map SeatRecord.id =
      (List.range seats.length).map (fun i => natDecimal (i + 1))) ∧
    (∀ seats : List Cand, ((assignIds (readingOrder seats)).map SeatRecord.id).Nodup) := by
  have hids : ∀ seats : List Cand, (assignIds (readingOrder seats)).map SeatRecord.id =
      (List.range seats.length).map (fun i => natDecimal (i + 1)) := by
    intro seats
    rw [assignIds_map_id, (readingOrder_perm seats).length_eq]
  refine ⟨by decide, readingOrder_perm, hids, fun seats => ?_⟩
  rw [hids]
  exact (List.nodup_range _).map
    (fun a b hab => by have := natDecimal_injective hab; omega)

/-! ### detect-seats-ocr.mjs: word records and de-duplication

`processRoom` Step 6 groups detections greedily: the first unused seat
seeds a group and absorbs every later unused seat within
`DEDUP_RADIUS = 20` of it; the group is then sorted by descending OCR
confidence and only its first (highest-confidence) member survives. -/

/-- OCR word detection: box centre, box size, engine confidence. -/
structure OcrWord where
  x : Nat
  y : Nat
  bw : Nat
  bh : Nat
  conf : Rat
deriving DecidableEq

/-- Squared distance between word centres (`dist` in the source is
`Math.sqrt`, compared against `DEDUP_RADIUS`). -/
def wd2 (a b : OcrWord) : Nat :=
  absDiff a.x b.x * absDiff a.x b.x + absDiff a.y b.y * absDiff a.y b.y

/-- Comparator `(a, b) => b.confidence - a.confidence` (descending). -/
def byConfDesc (a b : OcrWord) : Bool := decide (b.conf ≤ a.conf)

/-- Survivor of a dedup group: first element after the stable
descending-confidence sort (`group.sort(...)[0]`). -/
def pickBest (g : List OcrWord) : OcrWord :=
  (insSort byConfDesc g).headD ⟨0, 0, 0, 0, 0⟩

/-- Greedy dedup groups of `processRoom` Step 6 (squared radius `r2`). -/
def ocrGroups (r2 : Nat) : Nat → List OcrWord → List (List OcrWord)
  | 0, _ => []
  | _, [] => []
  | fuel + 1, s :: rest =>
    (s :: rest.filter (fun t => decide (wd2 s t < r2))) ::
      ocrGroups r2 fuel (rest.filter (fun t => !decide (wd2 s t < r2)))

/-- Step 6 of `processRoom`: keep the highest-confidence member of every
dedup group (`DEDUP_RADIUS = 20`, so `r2 = 400` at the call site). -/
def ocrDedup (r2 : Nat) (seats : List OcrWord) : List OcrWord :=
  (ocrGroups r2 seats.length seats).map pickBest

theorem ocrGroups_sub (r2 : Nat) :
    ∀ (fuel : Nat) (l : List OcrWord), ∀ g ∈ ocrGroups r2 fuel l,
      g ≠ [] ∧ ∀ t ∈ g, t ∈ l := by
  intro fuel
  induction fuel with
  | zero => intro l g hg; rw [ocrGroups] at hg; exact absurd hg (List.not_mem_nil g)
  | succ f ih =>
    intro l g hg
    cases l with
    | nil => simp [ocrGroups] at hg
    | cons s rest =>
      rw [ocrGroups] at hg
      rcases List.mem_cons.mp hg with rfl | hg'
      · refine ⟨List.cons_ne_nil _ _, fun t ht => ?_⟩
        rcases List.mem_cons.mp ht with rfl | ht'
        · exact List.mem_cons_self _ _
        · exact List.mem_cons_of_mem _ (List.mem_of_mem_filter ht')
      · obtain ⟨hne, hsub⟩ := ih _ g hg'
        exact ⟨hne, fun t ht => List.mem_cons_of_mem _ (List.mem_of_mem_filter (hsub t ht))⟩

theorem byConfDesc_trans (a b c : OcrWord) :
    byConfDesc a b = true → byConfDesc b c = true → byConfDesc a c = true := by
  intro h1 h2
  rw [byConfDesc] at h1 h2 ⊢
  exact decide_eq_true (le_trans (of_decide_eq_true h2) (of_decide_eq_true h1))

theorem byConfDesc_total (a b : OcrWord) :
    byConfDesc a b = true ∨ byConfDesc b a = true := by
  rw [byConfDesc, byConfDesc]
  rcases le_total a.conf b.conf with h | h
  · exact Or.inr (decide_eq_true h)
  · exact Or.inl (decide_eq_true h)

theorem pickBest_mem {g : List OcrWord} (h : g ≠ []) : pickBest g ∈ g := by
  rw [pickBest]
  cases hs : insSort byConfDesc g with
  | nil =>
    exfalso
    have := insSort_length byConfDesc g
    rw [hs] at this
    exact h (List.length_eq_zero.mp this.symm)
  | cons a t =>
    have : a ∈ insSort byConfDesc g := by rw [hs]; exact List.mem_cons_self _ _
    exact ((insSort_perm byConfDesc g).mem_iff).mp this

theorem pickBest_max {g : List OcrWord} : ∀ t ∈ g, t.conf ≤ (pickBest g).conf := by
  intro t ht
  rw [pickBest]
  cases hs : insSort byConfDesc g with
  | nil =>
    exfalso
    have := (insSort_perm byConfDesc g).length_eq
    rw [hs] at this
    rw [List.length_eq_zero.mp this.symm] at ht
    exact absurd ht (List.not_mem_nil t)
  | cons a t2 =>
    have hmem : t ∈ insSort byConfDesc g := ((insSort_perm byConfDesc g).mem_iff).mpr ht
    rw [hs] at hmem
    have hp := insSort_pairwise byConfDesc byConfDesc_trans
      (fun x y => (byConfDesc_total x y).imp id id) g
    rw [hs] at hp
    rcases List.mem_cons.mp hmem with rfl | hmem'
    · exact le_refl _
    · have := (List.pairwise_cons.mp hp).1 t hmem'
      exact of_decide_eq_true this

/-- C10.  In the OCR detector's de-duplication every output seat is one
of the input word-box centres (positions are never averaged), and the
survivor of every dedup group is a member of that group whose OCR
confidence is maximal in the group. -/
theorem c10_ocr_dedup (r2 : Nat) (seats : List OcrWord) :
    (∀ s ∈ ocrDedup r2 seats, s ∈ seats) ∧
    (∀ g ∈ ocrGroups r2 seats.length seats,
      pickBest g ∈ g ∧ ∀ t ∈ g, t.conf ≤ (pickBest g).conf) := by
  constructor
  · intro s hs
    rw [ocrDedup] at hs
    obtain ⟨g, hg, rfl⟩ := List.mem_map.mp hs
    obtain ⟨hne, hsub⟩ := ocrGroups_sub r2 _ _ g hg
    exact hsub _ (pickBest_mem hne)
  · intro g hg
    obtain ⟨hne, -⟩ := ocrGroups_sub r2 _ _ g hg
    exact ⟨pickBest_mem hne, pickBest_max⟩

/-- C10 (witness). -/
theorem c10_ocr_dedup_witness :
    pickBest [⟨0, 0, 1, 1, 1⟩, ⟨1, 0, 1, 1, 2⟩] ∈
      ([⟨0, 0, 1, 1, 1⟩, ⟨1, 0, 1, 1, 2⟩] : List OcrWord) ∧
    ∀ t ∈ ([⟨0, 0, 1, 1, 1⟩, ⟨1, 0, 1, 1, 2⟩] : List OcrWord),
      t.conf ≤ (pickBest [⟨0, 0, 1, 1, 1⟩, ⟨1, 0, 1, 1, 2⟩]).conf :=
  (c10_ocr_dedup 400 [⟨0, 0, 1, 1, 1⟩, ⟨1, 0, 1, 1, 2⟩]).2
    [⟨0, 0, 1, 1, 1⟩, ⟨1, 0, 1, 1, 2⟩] (by decide)

/-! ### Candidate filtering (detect-seats.mjs Phase 4, detect-seats-ocr.mjs Steps 4-5)

`detectSeats` Phase 4 applies, in source order: bounding-box dimension
bounds (5..55), dark-pixel-count bounds (15..1500), aspect-ratio bounds
(`bw / (bh || 1)` in `[0.15, 6.0]`, embedded exactly over rationals),
border-margin exclusion (40), and the vertical bands
`cy > 0.92 * h` / `cy < 0.04 * h`.  The OCR detector's filter keeps a
word iff its centre is inside the border margin 50 and the bands
`0.04 * h < y < 0.90 * h`, and its box is smaller than 100 x 60. -/

/-- Connected-component record of the labelling phase. -/
structure Component where
  minX : Nat
  minY : Nat
  maxX : Nat
  maxY : Nat
  count : Nat
deriving DecidableEq

/-- Component centre `Math.round(minX + bw / 2)`. -/
def centerX (c : Component) : Nat := c.minX + (c.maxX - c.minX + 1) / 2

/-- Component centre `Math.round(minY + bh / 2)`. -/
def centerY (c : Component) : Nat := c.minY + (c.maxY - c.minY + 1) / 2

/-- Phase 4 filter of `detectSeats` (detect-seats.mjs), with the source's
sequential rejection structure; ratio and band comparisons are carried
out exactly (`ar < 0.15` is `20 * bw < 3 * bh1`, `cy > 0.92 * h` is
`92 * h < 100 * cy`, and so on). -/
def passesSeatFilter (c : Component) (w h : Nat) : Bool :=
  let bw := c.maxX - c.minX
  let bh := c.maxY - c.minY
  if bw < 5 ∨ bh < 5 then false
  else if 55 < bw ∨ 55 < bh then false
  else if c.count < 15 ∨ 1500 < c.count then false
  else if 20 * bw < 3 * (if bh = 0 then 1 else bh) ∨ 6 * (if bh = 0 then 1 else bh) < bw then
    false
  else if centerX c < 40 ∨ ((w : Int) - 40 < (centerX c : Int)) then false
  else if centerY c < 40 ∨ ((h : Int) - 40 < (centerY c : Int)) then false
  else if 92 * h < 100 * centerY c then false
  else if 100 * centerY c < 4 * h then false
  else true

/-- Position and size filter of `processRoom` Steps 4-5
(detect-seats-ocr.mjs). -/
def passesOcrFilter (s : OcrWord) (w h : Nat) : Bool :=
  (decide (50 < s.x) && decide ((s.x : Int) < (w : Int) - 50) &&
   decide (4 * h < 100 * s.y) && decide (100 * s.y < 90 * h)) &&
  (decide (s.bw < 100) && decide (s.bh < 60))

theorem ratio_lower_iff {bw bh : Nat} (h : 0 < bh) :
    ((3 : ℚ) / 20 ≤ (bw : ℚ) / (bh : ℚ)) ↔ 3 * bh ≤ 20 * bw := by
  rw [div_le_div_iff (by norm_num) (by exact_mod_cast h)]
  norm_cast
  omega

theorem ratio_upper_iff {bw bh : Nat} (h : 0 < bh) :
    ((bw : ℚ) / (bh : ℚ) ≤ 6) ↔ bw ≤ 6 * bh := by
  rw [div_le_iff (by exact_mod_cast h)]
  norm_cast

theorem band_upper_iff (cy h : Nat) :
    ((cy : ℚ) ≤ 92 / 100 * (h : ℚ)) ↔ 100 * cy ≤ 92 * h := by
  rw [div_mul_eq_mul_div, le_div_iff (by norm_num)]
  norm_cast
  omega

theorem band_lower_iff (cy h : Nat) :
    ((4 : ℚ) / 100 * (h : ℚ) ≤ (cy : ℚ)) ↔ 4 * h ≤ 100 * cy := by
  rw [div_mul_eq_mul_div, div_le_iff (by norm_num)]
  norm_cast
  omega

theorem band_lower_lt_iff (y h : Nat) :
    ((4 : ℚ) / 100 * (h : ℚ) < (y : ℚ)) ↔ 4 * h < 100 * y := by
  rw [div_mul_eq_mul_div, div_lt_iff (by norm_num)]
  norm_cast
  omega

theorem band_upper_lt_iff (y h : Nat) :
    ((y : ℚ) < 90 / 100 * (h : ℚ)) ↔ 100 * y < 90 * h := by
  rw [div_mul_eq_mul_div, lt_div_iff (by norm_num)]
  norm_cast
  omega

theorem passesSeatFilter_iff_nat (c : Component) (w h : Nat) :
    passesSeatFilter c w h = true ↔
      (5 ≤ c.maxX - c.minX ∧ c.maxX - c.minX ≤ 55 ∧
       5 ≤ c.maxY - c.minY ∧ c.maxY - c.minY ≤ 55 ∧
       15 ≤ c.count ∧ c.count ≤ 1500 ∧
       3 * (c.maxY - c.minY) ≤ 20 * (c.maxX - c.minX) ∧
       c.maxX - c.minX ≤ 6 * (c.maxY - c.minY) ∧
       40 ≤ centerX c ∧ (centerX c : Int) ≤ (w : Int) - 40 ∧
       40 ≤ centerY c ∧ (centerY c : Int) ≤ (h : Int) - 40 ∧
       100 * centerY c ≤ 92 * h ∧ 4 * h ≤ 100 * centerY c) := by
  simp only [passesSeatFilter]
  split_ifs with g1 g2 g3 g4 g5 g6 g7 g8 <;>
    simp only [Bool.false_eq_true, false_iff, eq_self_iff_true, true_iff] <;> omega

/-- C7 (counterexample).  The claim states that the candidate filter
rejects solid blobs by a fill-ratio bound `pixelCount / bboxArea`, and
discards every component whose centre satisfies `y > 0.90 * height`.
The Phase 4 filter of `detectSeats` has no fill-ratio predicate and its
bottom band is `0.92 * height`: a completely solid 11 x 11 component
(fill ratio 1) survives, and so does a component centred at
`y = 0.91 * height`. -/
theorem c7_counterexample :
    passesSeatFilter ⟨100, 100, 110, 110, 121⟩ 500 500 = true ∧
    85 * ((110 - 100 + 1) * (110 - 100 + 1)) ≤
      100 * (⟨100, 100, 110, 110, 121⟩ : Component).count ∧
    passesSeatFilter ⟨100, 450, 110, 460, 121⟩ 500 500 = true ∧
    90 * 500 < 100 * centerY ⟨100, 450, 110, 460, 121⟩ := by decide

/-- C7 (amended).  The Phase 4 filter of `detectSeats` keeps a component
iff it passes the dimension bounds (5..55), the pixel-count bounds
(15..1500), the aspect-ratio bounds (`bw/bh` in `[3/20, 6]`), the
border margin 40, and the vertical bands `cy ≤ 0.92 * h` and
`cy ≥ 0.04 * h` — there is no fill-ratio predicate, and the bottom band
is `0.92`, not `0.90` (a fill-ratio bound and a plain `0.92` bottom band
appear only in the historical detector variant shipped alongside
extract-pdf-png.mjs).  The OCR filter keeps a word iff its centre obeys
the border margin 50 and the bands `0.04 * h < y < 0.90 * h` and its box
is under 100 x 60. -/
theorem c7_filter_characterization :
    (∀ (c : Component) (w h : Nat), c.minX ≤ c.maxX → c.minY ≤ c.maxY →
      (passesSeatFilter c w h = true ↔
        (5 ≤ c.maxX - c.minX ∧ c.maxX - c.minX ≤ 55 ∧
         5 ≤ c.maxY - c.minY ∧ c.maxY - c.minY ≤ 55 ∧
         15 ≤ c.count ∧ c.count ≤ 1500 ∧
         (3 : ℚ) / 20 ≤ ((c.maxX - c.minX : Nat) : ℚ) / ((c.maxY - c.minY : Nat) : ℚ) ∧
         ((c.maxX - c.minX : Nat) : ℚ) / ((c.maxY - c.minY : Nat) : ℚ) ≤ 6 ∧
         40 ≤ centerX c ∧ (centerX c : Int) ≤ (w : Int) - 40 ∧
         40 ≤ centerY c ∧ (centerY c : Int) ≤ (h : Int) - 40 ∧
         (centerY c : ℚ) ≤ 92 / 100 * (h : ℚ) ∧
         (4 : ℚ) / 100 * (h : ℚ) ≤ (centerY c : ℚ)))) ∧
    (∀ (s : OcrWord) (w h : Nat),
      passesOcrFilter s w h = true ↔
        (50 < s.x ∧ (s.x : Int) < (w : Int) - 50 ∧
         (4 : ℚ) / 100 * (h : ℚ) < (s.y : ℚ) ∧ (s.y : ℚ) < 90 / 100 * (h : ℚ) ∧
         s.bw < 100 ∧ s.bh < 60)) := by
  constructor
  · intro c w h hx hy
    rw [passesSeatFilter_iff_nat]
    constructor
    · rintro ⟨h1, h2, h3, h4, h5, h6, h7, h8, h9, h10, h11, h12, h13, h14⟩
      have hbh : 0 < c.maxY - c.minY := by omega
      exact ⟨h1, h2, h3, h4, h5, h6, (ratio_lower_iff hbh).mpr h7,
        (ratio_upper_iff hbh).mpr h8, h9, h10, h11, h12,
        (band_upper_iff _ _).mpr h13, (band_lower_iff _ _).mpr h14⟩
    · rintro ⟨h1, h2, h3, h4, h5, h6, h7, h8, h9, h10, h11, h12, h13, h14⟩
      have hbh : 0 < c.maxY - c.minY := by omega
      exact ⟨h1, h2, h3, h4, h5, h6, (ratio_lower_iff hbh).mp h7,
        (ratio_upper_iff hbh).mp h8, h9, h10, h11, h12,
        (band_upper_iff _ _).mp h13, (band_lower_iff _ _).mp h14⟩
  · intro s w h
    rw [passesOcrFilter]
    simp only [Bool.and_eq_true, decide_eq_true_eq]
    rw [band_lower_lt_iff, band_upper_lt_iff]
    tauto

/-- C7 (witness). -/
theorem c7_filter_characterization_witness :
    passesSeatFilter ⟨100, 100, 110, 110, 121⟩ 500 500 = true ↔
      (5 ≤ (⟨100, 100, 110, 110, 121⟩ : Component).maxX - (⟨100, 100, 110, 110, 121⟩ : Component).minX ∧
       (⟨100, 100, 110, 110, 121⟩ : Component).maxX - (⟨100, 100, 110, 110, 121⟩ : Component).minX ≤ 55 ∧
       5 ≤ (⟨100, 100, 110, 110, 121⟩ : Component).maxY - (⟨100, 100, 110, 110, 121⟩ : Component).minY ∧
       (⟨100, 100, 110, 110, 121⟩ : Component).maxY - (⟨100, 100, 110, 110, 121⟩ : Component).minY ≤ 55 ∧
       15 ≤ (⟨100, 100, 110, 110, 121⟩ : Component).count ∧
       (⟨100, 100, 110, 110, 121⟩ : Component).count ≤ 1500 ∧
       (3 : ℚ) / 20 ≤ (((⟨100, 100, 110, 110, 121⟩ : Component).maxX - (⟨100, 100, 110, 110, 121⟩ : Component).minX : Nat) : ℚ) /
         (((⟨100, 100, 110, 110, 121⟩ : Component).maxY - (⟨100, 100, 110, 110, 121⟩ : Component).minY : Nat) : ℚ) ∧
       (((⟨100, 100, 110, 110, 121⟩ : Component).maxX - (⟨100, 100, 110, 110, 121⟩ : Component).minX : Nat) : ℚ) /
         (((⟨100, 100, 110, 110, 121⟩ : Component).maxY - (⟨100, 100, 110, 110, 121⟩ : Component).minY : Nat) : ℚ) ≤ 6 ∧
       40 ≤ centerX ⟨100, 100, 110, 110, 121⟩ ∧
       (centerX ⟨100, 100, 110, 110, 121⟩ : Int) ≤ (500 : Int) - 40 ∧
       40 ≤ centerY ⟨100, 100, 110, 110, 121⟩ ∧
       (centerY ⟨100, 100, 110, 110, 121⟩ : Int) ≤ (500 : Int) - 40 ∧
       (centerY ⟨100, 100, 110, 110, 121⟩ : ℚ) ≤ 92 / 100 * ((500 : Nat) : ℚ) ∧
       (4 : ℚ) / 100 * ((500 : Nat) : ℚ) ≤ (centerY ⟨100, 100, 110, 110, 121⟩ : ℚ)) :=
  c7_filter_characterization.1 ⟨100, 100, 110, 110, 121⟩ 500 500 (by decide) (by decide)


/-! ### Batch drivers (detect-seats.mjs `main`, detect-seats-ocr.mjs `main`)

The blob-detection driver wraps each room's `detectSeats` call in
`try/catch`: a missing image or a thrown error leaves that room's
registry entry unchanged and the loop continues.  The OCR driver handles
a missing masked image gracefully (`stats.error`, room skipped), but the
`worker.recognize` call is *not* wrapped in `try/catch`: a thrown OCR
engine error propagates out of `main`'s loop, embedded as `Except.error`
aborting the remaining rooms. -/

/-- Registry entry for one room: identifier and current seat list. -/
structure Room where
  rid : Nat
  seats : List SeatRecord
deriving DecidableEq

/-- Outcome of processing one room in detect-seats.mjs `main`:
the image file is missing, `detectSeats` threw, or it returned seats. -/
inductive DetectOutcome where
  | missing
  | thrown
  | ok (seats : List SeatRecord)
deriving DecidableEq

/-- Loop body of detect-seats.mjs `main`: accumulate the updated
registry, the processed count and the total seat count; `missing` and
`thrown` leave the room unchanged (the `catch` swallows the error) and
the loop continues either way. -/
def stepRoom (f : Room → DetectOutcome) (st : List Room × Nat × Nat) (room : Room) :
    List Room × Nat × Nat :=
  match f room with
  | .missing => (st.1 ++ [room], st.2.1, st.2.2)
  | .thrown => (st.1 ++ [room], st.2.1, st.2.2)
  | .ok seats => (st.1 ++ [{ room with seats := seats }], st.2.1 + 1, st.2.2 + seats.length)

/-- Batch driver of detect-seats.mjs `main` over the registry. -/
def runDetectBatch (f : Room → DetectOutcome) (rooms : List Room) : List Room × Nat × Nat :=
  rooms.foldl (stepRoom f) ([], 0, 0)

/-- Per-room update as a function of that room's own outcome alone. -/
def applyOutcome (f : Room → DetectOutcome) (room : Room) : Room :=
  match f room with
  | .ok seats => { room with seats := seats }
  | _ => room

/-- Decide whether a room's detection succeeded. -/
def isOk (o : DetectOutcome) : Bool :=
  match o with
  | .ok _ => true
  | _ => false

/-- Outcome of processing one room in detect-seats-ocr.mjs `main`. -/
inductive OcrOutcome where
  | fileMissing
  | thrown (msg : String)
  | ok (seats : List OcrWord)
deriving DecidableEq

/-- Batch driver of detect-seats-ocr.mjs `main`: `processRoom` returns a
`file not found` marker for missing images (the room is skipped and the
loop continues), but nothing catches an exception thrown by the OCR
engine, so a `thrown` outcome propagates and aborts the loop, leaving
every later room unprocessed. -/
def runOcrBatch (f : Room → OcrOutcome) : List Room → Except String (List Room)
  | [] => .ok []
  | r :: rest =>
    match f r with
    | .fileMissing =>
      match runOcrBatch f rest with
      | .error e => .error e
      | .ok rs => .ok (r :: rs)
    | .thrown msg => .error msg
    | .ok seats =>
      match runOcrBatch f rest with
      | .error e => .error e
      | .ok rs =>
        .ok ({ r with seats := (assignIds (seats.map (fun s => ⟨s.x, s.y, 1⟩))) } :: rs)

theorem runDetectBatch_foldl (f : Room → DetectOutcome) :
    ∀ (rooms : List Room) (acc : List Room × Nat × Nat),
      rooms.foldl (stepRoom f) acc =
        (acc.1 ++ rooms.map (applyOutcome f),
         acc.2.1 + (rooms.filter (fun r => isOk (f r))).length,
         acc.2.2 + ((rooms.filter (fun r => isOk (f r))).map
           (fun r => (applyOutcome f r).seats.length)).sum) := by
  intro rooms
  induction rooms with
  | nil => intro acc; simp
  | cons r rest ih =>
    intro acc
    rw [List.foldl_cons, ih]
    cases hf : f r with
    | missing =>
      simp [stepRoom, hf, applyOutcome, isOk, List.filter_cons]
    | thrown =>
      simp [stepRoom, hf, applyOutcome, isOk, List.filter_cons]
    | ok seats =>
      simp [stepRoom, hf, applyOutcome, isOk, List.filter_cons]
      constructor
      · omega
      · omega

/-- C8 (counterexample).  The claim states that an OCR engine exception
in one room never aborts processing of the remaining rooms.  In the OCR
driver nothing catches the engine exception: with room 1 throwing and
room 2 succeeding, the whole batch evaluates to the propagated error and
room 2 is never processed. -/
theorem c8_counterexample :
    runOcrBatch
        (fun r => if r.rid = 1 then .thrown "ocr engine error" else .ok [⟨7, 9, 2, 2, 1⟩])
        [⟨1, []⟩, ⟨2, []⟩] = .error "ocr engine error" ∧
    (fun r : Room => if r.rid = 1 then OcrOutcome.thrown "ocr engine error"
        else .ok [⟨7, 9, 2, 2, 1⟩]) ⟨2, []⟩ = .ok [⟨7, 9, 2, 2, 1⟩] := by
  constructor
  · rfl
  · rfl

/-- C8 (amended).  In the blob-detection driver (detect-seats.mjs, and
refine-seats.mjs which has the same `try/catch` shape) no per-room error
aborts the rest of the batch: the final registry is a per-room map in
which each entry depends only on that room's own outcome (failing rooms
keep their old seats), and the driver's summary counts the successes.
In the OCR driver only the missing-image case degrades gracefully; a
thrown OCR engine error aborts the remaining rooms (see the
counterexample). -/
theorem c8_batch_isolation (f : Room → DetectOutcome) (rooms : List Room) :
    (runDetectBatch f rooms).1 = rooms.map (applyOutcome f) ∧
    (runDetectBatch f rooms).2.1 = (rooms.filter (fun r => isOk (f r))).length ∧
    (∀ g : Room → OcrOutcome, (∀ r ∈ rooms, ∀ msg, g r ≠ .thrown msg) →
      ∃ rs, runOcrBatch g rooms = .ok rs ∧ rs.length = rooms.length) := by
  refine ⟨?_, ?_, ?_⟩
  · rw [runDetectBatch, runDetectBatch_foldl]
    simp
  · rw [runDetectBatch, runDetectBatch_foldl]
    simp
  · intro g hg
    clear f
    induction rooms with
    | nil => exact ⟨[], rfl, rfl⟩
    | cons r rest ih =>
      obtain ⟨rs, hrs, hlen⟩ := ih (fun r' hr' msg => hg r' (List.mem_cons_of_mem _ hr') msg)
      cases hf : g r with
      | fileMissing =>
        refine ⟨r :: rs, ?_, by simp [hlen]⟩
        rw [runOcrBatch, hf]
        rw [hrs]
      | thrown msg => exact absurd hf (hg r (List.mem_cons_self _ _) msg)
      | ok seats =>
        refine ⟨{ r with seats := assignIds (seats.map (fun s => ⟨s.x, s.y, 1⟩)) } :: rs,
          ?_, by simp [hlen]⟩
        rw [runOcrBatch, hf]
        rw [hrs]

/-- C8 (witness). -/
theorem c8_batch_isolation_witness :
    ∃ rs, runOcrBatch (fun _ => OcrOutcome.fileMissing) [⟨1, []⟩, ⟨2, []⟩] = .ok rs ∧
      rs.length = ([⟨1, []⟩, ⟨2, []⟩] : List Room).length :=
  (c8_batch_isolation (fun _ => .thrown) [⟨1, []⟩, ⟨2, []⟩]).2.2
    (fun _ => OcrOutcome.fileMissing) (by intro r hr msg; simp)


/-! ### Morphological dilation

`dilate` (mask-outside-boundary.mjs) checks, for every output pixel, the
bounding box of the integer disk `dx² + dy² ≤ radius²`, with explicit
bounds checks — so an output pixel is on iff some in-range input pixel
within the disk is on.  The inline Phase 2 dilation of `detectSeats`
(detect-seats.mjs) instead iterates only over source pixels at least
`R` away from every image border and stamps their disks; source pixels
nearer the border stamp nothing. -/

/-- Offsets `(dy, dx)` scanned by the dilation loops (`dy` outer),
`dy, dx ∈ [-radius, radius]`. -/
def offsets (radius : Nat) : List (Int × Int) :=
  (List.range (2 * radius + 1)).flatMap (fun (i : Nat) =>
    (List.range (2 * radius + 1)).map (fun (j : Nat) =>
      (((i : Nat) : Int) - radius, ((j : Nat) : Int) - radius)))

/-- `dilate(mask, w, h, radius)` of mask-outside-boundary.mjs. -/
def dilate (mask : Nat → Bool) (w h radius : Nat) (p : Nat) : Bool :=
  if mask p then true
  else
    (offsets radius).any (fun d =>
      let ny := ((p / w : Nat) : Int) + d.1
      let nx := ((p % w : Nat) : Int) + d.2
      decide (0 ≤ nx) && decide (nx < (w : Int)) && decide (0 ≤ ny) && decide (ny < (h : Int)) &&
      decide (d.2 * d.2 + d.1 * d.1 ≤ (radius : Int) * radius) && mask (ny * w + nx).toNat)

/-- Inline Phase 2 dilation of `detectSeats`: only source pixels with
`R ≤ x < w - R` and `R ≤ y < h - R` stamp their disk. -/
def dilatedDS (mask : Nat → Bool) (w h R : Nat) : Nat → Bool :=
  ((List.range h).filter (fun y => decide (R ≤ y) && decide (y < h - R))).foldl
    (fun out y =>
      ((List.range w).filter (fun x => decide (R ≤ x) && decide (x < w - R))).foldl
        (fun out x =>
          if mask (y * w + x) then
            (offsets R).foldl
              (fun out d =>
                if d.2 * d.2 + d.1 * d.1 ≤ (R : Int) * R then
                  fun p =>
                    if (p : Int) = ((y : Int) + d.1) * w + ((x : Int) + d.2) then true else out p
                else out)
              out
          else out)
        out)
    (fun _ => false)

/-- Squared distance between the pixel centres of indices `p` and `q` in
a `w`-wide grid. -/
def pixDist2 (w p q : Nat) : Int :=
  (((q % w : Nat) : Int) - ((p % w : Nat) : Int)) * (((q % w : Nat) : Int) - ((p % w : Nat) : Int)) +
  (((q / w : Nat) : Int) - ((p / w : Nat) : Int)) * (((q / w : Nat) : Int) - ((p / w : Nat) : Int))

theorem offsets_mem {radius : Nat} {d : Int × Int} :
    d ∈ offsets radius ↔
      -(radius : Int) ≤ d.1 ∧ d.1 ≤ radius ∧ -(radius : Int) ≤ d.2 ∧ d.2 ≤ radius := by
  obtain ⟨dy, dx⟩ := d
  rw [offsets, List.mem_flatMap]
  constructor
  · rintro ⟨i, hi, hmem⟩
    rw [List.mem_map] at hmem
    obtain ⟨j, hj, hpair⟩ := hmem
    rw [List.mem_range] at hi hj
    rw [Prod.mk.injEq] at hpair
    obtain ⟨h1, h2⟩ := hpair
    refine ⟨?_, ?_, ?_, ?_⟩
    · exact (by omega : -(radius : Int) ≤ dy)
    · exact (by omega : dy ≤ (radius : Int))
    · exact (by omega : -(radius : Int) ≤ dx)
    · exact (by omega : dx ≤ (radius : Int))
  · rintro ⟨h1, h2, h3, h4⟩
    refine ⟨(dy + radius).toNat, List.mem_range.mpr (by omega), ?_⟩
    rw [List.mem_map]
    refine ⟨(dx + radius).toNat, List.mem_range.mpr (by omega), ?_⟩
    rw [Prod.mk.injEq]
    refine ⟨?_, ?_⟩
    · exact (by omega : ((((dy + (radius : Int)).toNat : Nat) : Int) - (radius : Int)) = dy)
    · exact (by omega : ((((dx + (radius : Int)).toNat : Nat) : Int) - (radius : Int)) = dx)

theorem int_abs_le_of_sq_le_sq {a r : Int} (hr : 0 ≤ r) (h : a * a ≤ r * r) :
    -r ≤ a ∧ a ≤ r := by
  constructor <;> nlinarith

theorem dilate_iff (mask : Nat → Bool) (w h radius p : Nat) (hp : p < w * h) :
    dilate mask w h radius p = true ↔
      ∃ q, q < w * h ∧ mask q = true ∧ pixDist2 w p q ≤ (radius : Int) * radius := by
  have hw : 0 < w := by
    rcases Nat.eq_zero_or_pos w with rfl | hw
    · simp at hp
    · exact hw
  have hh : 0 < h := by
    rcases Nat.eq_zero_or_pos h with rfl | hh
    · simp at hp
    · exact hh
  rw [dilate]
  cases hm : mask p with
  | true =>
    rw [if_pos rfl]
    refine iff_of_true rfl ⟨p, hp, hm, ?_⟩
    simp only [pixDist2, sub_self, mul_zero, zero_mul, add_zero]
    positivity
  | false =>
    rw [if_neg (by simp)]
    rw [List.any_eq_true]
    constructor
    · rintro ⟨d, hd, hcond⟩
      simp only [Bool.and_eq_true, decide_eq_true_eq] at hcond
      obtain ⟨⟨⟨⟨⟨h1, h2⟩, h3⟩, h4⟩, h5⟩, h6⟩ := hcond
      set ny : Int := ((p / w : Nat) : Int) + d.1 with hny
      set nx : Int := ((p % w : Nat) : Int) + d.2 with hnx
      set ty : Nat := ny.toNat with hty
      set tx : Nat := nx.toNat with htx
      have hnyc : ny = (ty : Int) := (Int.toNat_of_nonneg h3).symm
      have hnxc : nx = (tx : Int) := (Int.toNat_of_nonneg h1).symm
      have htyh : ty < h := by omega
      have htxw : tx < w := by omega
      have hqcast : ny * (w : Int) + nx = ((ty * w + tx : Nat) : Int) := by
        rw [hnyc, hnxc]; push_cast; ring
      have hq : (ny * (w : Int) + nx).toNat = ty * w + tx := by
        rw [hqcast, Int.toNat_natCast]
      have hmod : (ty * w + tx) % w = tx := by
        rw [Nat.mul_comm ty w, Nat.mul_add_mod]
        exact Nat.mod_eq_of_lt htxw
      have hdiv : (ty * w + tx) / w = ty := by
        rw [Nat.mul_comm ty w, Nat.mul_add_div hw]
        rw [Nat.div_eq_of_lt htxw]
        omega
      refine ⟨ty * w + tx, ?_, ?_, ?_⟩
      · calc ty * w + tx < ty * w + w := by omega
          _ = (ty + 1) * w := by ring
          _ ≤ h * w := Nat.mul_le_mul_right w (by omega)
          _ = w * h := Nat.mul_comm h w
      · rw [← hq]; exact h6
      · simp only [pixDist2, hmod, hdiv]
        have e1 : ((tx : Nat) : Int) - ((p % w : Nat) : Int) = d.2 := by omega
        have e2 : ((ty : Nat) : Int) - ((p / w : Nat) : Int) = d.1 := by omega
        rw [e1, e2]
        linarith [h5]
    · rintro ⟨q, hq, hmq, hdist⟩
      simp only [pixDist2] at hdist
      set dx : Int := ((q % w : Nat) : Int) - ((p % w : Nat) : Int) with hdx
      set dy : Int := ((q / w : Nat) : Int) - ((p / w : Nat) : Int) with hdy
      have hdx2 : dx * dx ≤ (radius : Int) * radius := by nlinarith [mul_self_nonneg dy]
      have hdy2 : dy * dy ≤ (radius : Int) * radius := by nlinarith [mul_self_nonneg dx]
      obtain ⟨hdx1, hdx3⟩ := int_abs_le_of_sq_le_sq (by positivity) hdx2
      obtain ⟨hdy1, hdy3⟩ := int_abs_le_of_sq_le_sq (by positivity) hdy2
      refine ⟨(dy, dx), offsets_mem.mpr ⟨hdy1, hdy3, hdx1, hdx3⟩, ?_⟩
      have hqw : q % w < w := Nat.mod_lt _ hw
      have hqh : q / w < h := by
        rw [Nat.div_lt_iff_lt_mul hw]
        rw [Nat.mul_comm w h] at hq
        exact hq
      have hdiv0q : (0 : Int) ≤ ((q / w : Nat) : Int) := Int.natCast_nonneg _
      have hdiv0p : (0 : Int) ≤ ((p / w : Nat) : Int) := Int.natCast_nonneg _
      simp only [Bool.and_eq_true, decide_eq_true_eq]
      refine ⟨⟨⟨⟨⟨?_, ?_⟩, ?_⟩, ?_⟩, ?_⟩, ?_⟩
      · show (0 : Int) ≤ ((p % w : Nat) : Int) + dx
        omega
      · show ((p % w : Nat) : Int) + dx < (w : Int)
        omega
      · show (0 : Int) ≤ ((p / w : Nat) : Int) + dy
        omega
      · show ((p / w : Nat) : Int) + dy < (h : Int)
        omega
      · show dx * dx + dy * dy ≤ (radius : Int) * radius
        linarith [hdist]
      · have heq : (((p / w : Nat) : Int) + dy) * (w : Int) + (((p % w : Nat) : Int) + dx) =
            (q : Int) := by
          have e3 : ((p / w : Nat) : Int) + dy = ((q / w : Nat) : Int) := by omega
          have e4 : ((p % w : Nat) : Int) + dx = ((q % w : Nat) : Int) := by omega
          rw [e3, e4]
          have hnat : (q / w) * w + q % w = q := by
            rw [Nat.mul_comm]
            exact Nat.div_add_mod q w
          exact_mod_cast hnat
        rw [heq, Int.toNat_natCast]
        exact hmq

/-- C4 (counterexample).  The claim states that, for every mask and
radius, a pixel is on after dilation iff some input pixel within the
radius is on.  The inline Phase 2 dilation of `detectSeats` skips source
pixels within `R` of the border: a lone on-pixel at index 0 of a 5 x 5
image with `R = 2` dilates to the all-off mask, even though pixel 0
itself is an on input pixel within distance `R` of itself. -/
theorem c4_counterexample :
    (fun q => decide (q = 0)) 0 = true ∧
    pixDist2 5 0 0 ≤ (2 : Int) * 2 ∧
    dilatedDS (fun q => decide (q = 0)) 5 5 2 0 = false := by
  refine ⟨rfl, by decide, by decide⟩

/-- C4 (amended).  The standalone `dilate` of the boundary-masking
script satisfies the claimed contract exactly: for every mask, image
size, radius and in-range pixel, the output pixel is on iff some
in-range input pixel within the integer disk `dx² + dy² ≤ radius²` is
on; consequently the all-off mask dilates to the all-off mask, and a
single on-pixel dilates to exactly its disk (clipped to the image).
The inline dilation of `detectSeats` does not satisfy this contract:
source pixels within `R` of a border stamp nothing (see the
counterexample). -/
theorem c4_dilate_disk :
    (∀ (mask : Nat → Bool) (w h radius p : Nat), p < w * h →
      (dilate mask w h radius p = true ↔
        ∃ q, q < w * h ∧ mask q = true ∧ pixDist2 w p q ≤ (radius : Int) * radius)) ∧
    (∀ (w h radius p : Nat), dilate (fun _ => false) w h radius p = false) ∧
    (∀ (w h radius q0 p : Nat), p < w * h → q0 < w * h →
      (dilate (fun q => decide (q = q0)) w h radius p = true ↔
        pixDist2 w p q0 ≤ (radius : Int) * radius)) := by
  refine ⟨dilate_iff, ?_, ?_⟩
  · intro w h radius p
    rw [dilate]
    simp
  · intro w h radius q0 p hp hq0
    rw [dilate_iff _ _ _ _ _ hp]
    constructor
    · rintro ⟨q, hq, hmq, hd⟩
      have hqq : q = q0 := of_decide_eq_true hmq
      subst hqq
      exact hd
    · intro hd
      exact ⟨q0, hq0, by simp, hd⟩

/-- C4 (witness). -/
theorem c4_dilate_disk_witness :
    dilate (fun q => decide (q = 0)) 3 3 1 1 = true ↔
      ∃ q, q < 3 * 3 ∧ decide (q = 0) = true ∧ pixDist2 3 1 q ≤ (1 : Int) * 1 :=
  c4_dilate_disk.1 (fun q => decide (q = 0)) 3 3 1 1 (by decide)

/-! ### Border-seeded flood fill (mask-outside-boundary.mjs, `processImage` Steps 3)

The BFS state is the `outside` marking (a function on indices) and the
FIFO queue.  The source seeds every non-boundary pixel of the four image
edges (the top/bottom loop pushes unconditionally, the left/right loop
checks `!outside` first), then repeatedly pops the queue head and marks
and enqueues every 4-neighbour that is neither marked nor boundary.  The
fuel `2 * w * h + 2 * w + 2 * h` dominates the potential
`2 * (unmarked pixels) + (queue length)`, which strictly decreases at
every iteration, so the embedded loop always drains its queue exactly as
the source's `while (head < queue.length)` does. -/

/-- 4-neighbour indices pushed for `idx` (left, right, up, down), with
the source's bounds tests on `x = idx % w` and `y = idx / w`. -/
def nbrs (w h idx : Nat) : List Nat :=
  (if 0 < idx % w then [idx - 1] else []) ++
  (if idx % w + 1 < w then [idx + 1] else []) ++
  (if 0 < idx / w then [idx - w] else []) ++
  (if idx / w + 1 < h then [idx + w] else [])

/-- Mark pixel `n` and push it (`outside[n] = 1; queue.push(n)`). -/
def markQ (st : (Nat → Bool) × List Nat) (n : Nat) : (Nat → Bool) × List Nat :=
  (fun p => if p = n then true else st.1 p, st.2 ++ [n])

/-- Body of `for (const n of neighbors)`: mark and enqueue unvisited
non-boundary neighbours. -/
def visitStep (boundary : Nat → Bool) (st : (Nat → Bool) × List Nat) (n : Nat) :
    (Nat → Bool) × List Nat :=
  if !(st.1 n) && !(boundary n) then markQ st n else st

/-- Process all neighbours of one popped pixel. -/
def visitNbrs (boundary : Nat → Bool) (ns : List Nat) (st : (Nat → Bool) × List Nat) :
    (Nat → Bool) × List Nat :=
  ns.foldl (visitStep boundary) st

/-- The BFS loop `while (head < queue.length)`, fuel-indexed. -/
def floodLoop (boundary : Nat → Bool) (w h : Nat) :
    Nat → (Nat → Bool) → List Nat → (Nat → Bool)
  | _, marked, [] => marked
  | 0, marked, _ :: _ => marked
  | fuel + 1, marked, idx :: rest =>
    let st := visitNbrs boundary (nbrs w h idx) (marked, rest)
    floodLoop boundary w h fuel st.1 st.2

/-- Top/bottom seeding step (`x` column): seed index `x` of row 0 and
index `(h-1)*w + x` of the last row when not boundary (no `outside`
check in the source, so duplicates are possible when `h = 1`). -/
def seedTBStep (boundary : Nat → Bool) (w h : Nat) (st : (Nat → Bool) × List Nat) (x : Nat) :
    (Nat → Bool) × List Nat :=
  let st2 := if !(boundary x) then markQ st x else st
  let bot := (h - 1) * w + x
  if !(boundary bot) then markQ st2 bot else st2

/-- Left/right seeding step (`y` row): seed `y*w` and `y*w + (w-1)` when
neither boundary nor already marked. -/
def seedLRStep (boundary : Nat → Bool) (w : Nat) (st : (Nat → Bool) × List Nat) (y : Nat) :
    (Nat → Bool) × List Nat :=
  let left := y * w
  let st2 := if !(boundary left) && !(st.1 left) then markQ st left else st
  let right := y * w + (w - 1)
  if !(boundary right) && !(st2.1 right) then markQ st2 right else st2

/-- Border seeding of `processImage`: all four edges. -/
def seedState (boundary : Nat → Bool) (w h : Nat) : (Nat → Bool) × List Nat :=
  (List.range h).foldl (seedLRStep boundary w)
    ((List.range w).foldl (seedTBStep boundary w h) (fun _ => false, []))

/-- `classifyOutside(boundaryMask, width, height)`: the full
border-seeded BFS of `processImage` Step 3. -/
def classifyOutside (boundary : Nat → Bool) (w h : Nat) : Nat → Bool :=
  let st := seedState boundary w h
  floodLoop boundary w h (2 * (w * h) + 2 * w + 2 * h) st.1 st.2

/-- Index lies on one of the four image edges. -/
def onBorder (w h idx : Nat) : Prop :=
  idx % w = 0 ∨ idx % w = w - 1 ∨ idx / w = 0 ∨ idx / w = h - 1

/-- Specification relation: `p` is reachable from some non-boundary
border pixel by 4-connected steps that never enter the boundary mask. -/
inductive Reach (boundary : Nat → Bool) (w h : Nat) : Nat → Prop where
  | border (p : Nat) (hp : p < w * h) (hb : onBorder w h p) (hnb : boundary p = false) :
      Reach boundary w h p
  | step (p q : Nat) (hr : Reach boundary w h p) (hq : q ∈ nbrs w h p)
      (hnb : boundary q = false) : Reach boundary w h q

/-- Number of unmarked indices below `N` (the termination potential's
main summand). -/
def cardU (N : Nat) (m : Nat → Bool) : Nat :=
  ((Finset.range N).filter (fun p => m p = false)).card

theorem row_col_lt {y x w h : Nat} (hy : y < h) (hx : x < w) : y * w + x < w * h := by
  calc y * w + x < y * w + w := by omega
    _ = (y + 1) * w := by ring
    _ ≤ h * w := Nat.mul_le_mul_right w hy
    _ = w * h := Nat.mul_comm h w

theorem nbrs_lt {w h p q : Nat} (hp : p < w * h) (hq : q ∈ nbrs w h p) : q < w * h := by
  have hdm : p / w * w + p % w = p := by
    rw [Nat.mul_comm]
    exact Nat.div_add_mod p w
  simp only [nbrs, List.mem_append] at hq
  rcases hq with ((hq | hq) | hq) | hq
  · split at hq
    · simp only [List.mem_singleton] at hq
      omega
    · exact absurd hq (List.not_mem_nil q)
  · split at hq
    · rename_i hcond
      simp only [List.mem_singleton] at hq
      subst hq
      have hw : 0 < w := by omega
      have hdiv : p / w < h := by
        rw [Nat.div_lt_iff_lt_mul hw, Nat.mul_comm]
        exact hp
      have e : p + 1 = p / w * w + (p % w + 1) := by omega
      rw [e]
      exact row_col_lt hdiv (by omega)
    · exact absurd hq (List.not_mem_nil q)
  · split at hq
    · simp only [List.mem_singleton] at hq
      omega
    · exact absurd hq (List.not_mem_nil q)
  · split at hq
    · rename_i hcond
      simp only [List.mem_singleton] at hq
      subst hq
      have hw : 0 < w := by
        by_contra hw0
        have hw0' : w = 0 := by omega
        subst hw0'
        simp at hp
      have e : p + w = (p / w + 1) * w + p % w := by
        have h2 : (p / w + 1) * w = p / w * w + w := by ring
        omega
      rw [e]
      exact row_col_lt hcond (Nat.mod_lt _ hw)
    · exact absurd hq (List.not_mem_nil q)

theorem reach_lt {boundary : Nat → Bool} {w h p : Nat}
    (h1 : Reach boundary w h p) : p < w * h := by
  induction h1 with
  | border p hp hb hnb => exact hp
  | step p q hr hq hnb ih => exact nbrs_lt ih hq

theorem reach_not_boundary {boundary : Nat → Bool} {w h p : Nat}
    (h1 : Reach boundary w h p) : boundary p = false := by
  cases h1 with
  | border p hp hb hnb => exact hnb
  | step p q hr hq hnb => exact hnb

theorem cardU_le (N : Nat) (m : Nat → Bool) : cardU N m ≤ N := by
  rw [cardU]
  exact (Finset.card_filter_le _ _).trans (by rw [Finset.card_range])

theorem cardU_mark {N : Nat} {m : Nat → Bool} {n : Nat} (hn : n < N) (hm : m n = false) :
    cardU N (fun p => if p = n then true else m p) + 1 = cardU N m := by
  rw [cardU, cardU]
  have hset : (Finset.range N).filter (fun p => (if p = n then true else m p) = false) =
      ((Finset.range N).filter (fun p => m p = false)).erase n := by
    ext q
    simp only [Finset.mem_filter, Finset.mem_erase, Finset.mem_range]
    constructor
    · rintro ⟨hq, hv⟩
      by_cases hqn : q = n
      · subst hqn
        simp at hv
      · rw [if_neg hqn] at hv
        exact ⟨hqn, hq, hv⟩
    · rintro ⟨hqn, hq, hv⟩
      rw [if_neg hqn]
      exact ⟨hq, hv⟩
  rw [hset]
  have hmem : n ∈ (Finset.range N).filter (fun p => m p = false) := by
    simp only [Finset.mem_filter, Finset.mem_range]
    exact ⟨hn, hm⟩
  rw [Finset.card_erase_of_mem hmem]
  have := Finset.card_pos.mpr ⟨n, hmem⟩
  omega

theorem markQ_marked (s : (Nat → Bool) × List Nat) (n p : Nat) :
    ((markQ s n).1 p = true) ↔ (p = n ∨ s.1 p = true) := by
  rw [markQ]
  by_cases hpn : p = n <;> simp [hpn]

theorem markQ_queue (s : (Nat → Bool) × List Nat) (n p : Nat) :
    (p ∈ (markQ s n).2) ↔ (p ∈ s.2 ∨ p = n) := by
  rw [markQ]
  simp

theorem visitStep_cases (boundary : Nat → Bool) (st : (Nat → Bool) × List Nat) (n : Nat) :
    (st.1 n = false ∧ boundary n = false ∧ visitStep boundary st n = markQ st n) ∨
    ((st.1 n = true ∨ boundary n = true) ∧ visitStep boundary st n = st) := by
  rw [visitStep]
  cases hm : st.1 n <;> cases hb : boundary n <;> simp [hm, hb]

theorem visit_mono (boundary : Nat → Bool) :
    ∀ (ns : List Nat) (st : (Nat → Bool) × List Nat) (p : Nat),
      st.1 p = true → (visitNbrs boundary ns st).1 p = true := by
  intro ns
  induction ns with
  | nil => intro st p hp; exact hp
  | cons n t ih =>
    intro st p hp
    rw [visitNbrs, List.foldl_cons]
    apply ih
    rcases visitStep_cases boundary st n with ⟨-, -, he⟩ | ⟨-, he⟩ <;> rw [he]
    · exact (markQ_marked st n p).mpr (Or.inr hp)
    · exact hp

theorem visit_queue_mono (boundary : Nat → Bool) :
    ∀ (ns : List Nat) (st : (Nat → Bool) × List Nat) (p : Nat),
      p ∈ st.2 → p ∈ (visitNbrs boundary ns st).2 := by
  intro ns
  induction ns with
  | nil => intro st p hp; exact hp
  | cons n t ih =>
    intro st p hp
    rw [visitNbrs, List.foldl_cons]
    apply ih
    rcases visitStep_cases boundary st n with ⟨-, -, he⟩ | ⟨-, he⟩ <;> rw [he]
    · exact (markQ_queue st n p).mpr (Or.inl hp)
    · exact hp

theorem visit_origin (boundary : Nat → Bool) :
    ∀ (ns : List Nat) (st : (Nat → Bool) × List Nat) (p : Nat),
      (visitNbrs boundary ns st).1 p = true →
      st.1 p = true ∨ (p ∈ ns ∧ boundary p = false) := by
  intro ns
  induction ns with
  | nil => intro st p hp; exact Or.inl hp
  | cons n t ih =>
    intro st p hp
    rw [visitNbrs, List.foldl_cons] at hp
    rcases ih _ p hp with hstep | ⟨hmem, hb⟩
    · rcases visitStep_cases boundary st n with ⟨-, hbn, he⟩ | ⟨-, he⟩
      · rw [he] at hstep
        rcases (markQ_marked st n p).mp hstep with rfl | hold
        · exact Or.inr ⟨List.mem_cons_self _ _, hbn⟩
        · exact Or.inl hold
      · rw [he] at hstep
        exact Or.inl hstep
    · exact Or.inr ⟨List.mem_cons_of_mem _ hmem, hb⟩

theorem visit_covers (boundary : Nat → Bool) :
    ∀ (ns : List Nat) (st : (Nat → Bool) × List Nat) (n : Nat),
      n ∈ ns → boundary n = false → (visitNbrs boundary ns st).1 n = true := by
  intro ns
  induction ns with
  | nil => intro st n hn; exact absurd hn (List.not_mem_nil n)
  | cons m t ih =>
    intro st n hn hb
    rcases List.mem_cons.mp hn with rfl | hn'
    · rw [visitNbrs, List.foldl_cons]
      rcases visitStep_cases boundary st n with ⟨-, -, he⟩ | ⟨hcase, he⟩
      · apply visit_mono
        rw [he]
        exact (markQ_marked st n n).mpr (Or.inl rfl)
      · rcases hcase with hm | hbn
        · apply visit_mono
          rw [he]
          exact hm
        · rw [hb] at hbn
          exact Bool.noConfusion hbn
    · rw [visitNbrs, List.foldl_cons]
      exact ih _ n hn' hb

theorem visit_queue_marked (boundary : Nat → Bool) :
    ∀ (ns : List Nat) (st : (Nat → Bool) × List Nat) (p : Nat),
      p ∈ (visitNbrs boundary ns st).2 →
      p ∈ st.2 ∨ (visitNbrs boundary ns st).1 p = true := by
  intro ns
  induction ns with
  | nil => intro st p hp; exact Or.inl hp
  | cons n t ih =>
    intro st p hp
    rw [visitNbrs, List.foldl_cons] at hp ⊢
    rcases ih _ p hp with hq | hmk
    · rcases visitStep_cases boundary st n with ⟨-, -, he⟩ | ⟨-, he⟩
      · rw [he] at hq
        rcases (markQ_queue st n p).mp hq with hold | hpn
        · exact Or.inl hold
        · right
          apply visit_mono
          rw [he]
          exact (markQ_marked st n p).mpr (Or.inl hpn)
      · rw [he] at hq
        exact Or.inl hq
    · exact Or.inr hmk

theorem visit_marked_queue (boundary : Nat → Bool) :
    ∀ (ns : List Nat) (st : (Nat → Bool) × List Nat) (p : Nat),
      (visitNbrs boundary ns st).1 p = true →
      st.1 p = true ∨ p ∈ (visitNbrs boundary ns st).2 := by
  intro ns
  induction ns with
  | nil => intro st p hp; exact Or.inl hp
  | cons n t ih =>
    intro st p hp
    rw [visitNbrs, List.foldl_cons] at hp ⊢
    rcases ih _ p hp with hstep | hq
    · rcases visitStep_cases boundary st n with ⟨-, -, he⟩ | ⟨-, he⟩
      · rw [he] at hstep
        rcases (markQ_marked st n p).mp hstep with hpn | hold
        · right
          apply visit_queue_mono
          rw [he]
          exact (markQ_queue st n p).mpr (Or.inr hpn)
        · exact Or.inl hold
      · rw [he] at hstep
        exact Or.inl hstep
    · exact Or.inr hq

theorem visit_potential (boundary : Nat → Bool) (N : Nat) :
    ∀ (ns : List Nat) (st : (Nat → Bool) × List Nat), (∀ n ∈ ns, n < N) →
      2 * cardU N (visitNbrs boundary ns st).1 + (visitNbrs boundary ns st).2.length ≤
      2 * cardU N st.1 + st.2.length := by
  intro ns
  induction ns with
  | nil => intro st hns; exact Nat.le_refl _
  | cons n t ih =>
    intro st hns
    rw [visitNbrs, List.foldl_cons]
    refine (ih _ (fun m hm => hns m (List.mem_cons_of_mem _ hm))).trans ?_
    rcases visitStep_cases boundary st n with ⟨hm, -, he⟩ | ⟨-, he⟩
    · rw [he]
      have hcard := cardU_mark (hns n (List.mem_cons_self _ _)) hm
      have h1 : (markQ st n).1 = fun p => if p = n then true else st.1 p := rfl
      have h2 : (markQ st n).2 = st.2 ++ [n] := rfl
      rw [h1, h2, List.length_append]
      simp only [List.length_cons, List.length_nil]
      omega
    · rw [he]

theorem marked_closed_iff (boundary : Nat → Bool) (w h : Nat) (marked : Nat → Bool)
    (h1 : ∀ p, marked p = true → Reach boundary w h p)
    (h3 : ∀ p, marked p = true → ∀ n ∈ nbrs w h p, boundary n = false → marked n = true)
    (h4 : ∀ p, p < w * h → onBorder w h p → boundary p = false → marked p = true) :
    ∀ p, marked p = true ↔ Reach boundary w h p := by
  intro p
  constructor
  · exact h1 p
  · intro hr
    induction hr with
    | border q hq hb hnb => exact h4 q hq hb hnb
    | step q r hr hq hnb ih => exact h3 q ih r hq hnb

theorem floodLoop_spec (boundary : Nat → Bool) (w h : Nat) :
    ∀ (fuel : Nat) (marked : Nat → Bool) (queue : List Nat),
      (∀ p, marked p = true → Reach boundary w h p) →
      (∀ p, p ∈ queue → marked p = true) →
      (∀ p, marked p = true → p ∉ queue →
        ∀ n ∈ nbrs w h p, boundary n = false → marked n = true) →
      (∀ p, p < w * h → onBorder w h p → boundary p = false → marked p = true) →
      2 * cardU (w * h) marked + queue.length ≤ fuel →
      ∀ p, (floodLoop boundary w h fuel marked queue p = true ↔ Reach boundary w h p) := by
  intro fuel
  induction fuel with
  | zero =>
    intro marked queue h1 h2 h3 h4 h5 p
    cases queue with
    | nil =>
      exact marked_closed_iff boundary w h marked h1
        (fun q hq => h3 q hq (List.not_mem_nil q)) h4 p
    | cons a rest =>
      exfalso
      simp only [List.length_cons] at h5
      omega
  | succ fuel ih =>
    intro marked queue h1 h2 h3 h4 h5 p
    cases queue with
    | nil =>
      exact marked_closed_iff boundary w h marked h1
        (fun q hq => h3 q hq (List.not_mem_nil q)) h4 p
    | cons idx rest =>
      have hidxm : marked idx = true := h2 idx (List.mem_cons_self _ _)
      have hreach : Reach boundary w h idx := h1 idx hidxm
      have hlt : idx < w * h := reach_lt hreach
      have hnlt : ∀ n ∈ nbrs w h idx, n < w * h := fun n hn => nbrs_lt hlt hn
      have inv1 : ∀ q, (visitNbrs boundary (nbrs w h idx) (marked, rest)).1 q = true →
          Reach boundary w h q := by
        intro q hq
        rcases visit_origin boundary _ _ q hq with hold | ⟨hmem, hb⟩
        · exact h1 q hold
        · exact Reach.step idx q hreach hmem hb
      have inv2 : ∀ q, q ∈ (visitNbrs boundary (nbrs w h idx) (marked, rest)).2 →
          (visitNbrs boundary (nbrs w h idx) (marked, rest)).1 q = true := by
        intro q hq
        rcases visit_queue_marked boundary _ _ q hq with hold | hm
        · exact visit_mono boundary _ _ q (h2 q (List.mem_cons_of_mem _ hold))
        · exact hm
      have inv3 : ∀ q, (visitNbrs boundary (nbrs w h idx) (marked, rest)).1 q = true →
          q ∉ (visitNbrs boundary (nbrs w h idx) (marked, rest)).2 →
          ∀ n ∈ nbrs w h q, boundary n = false →
            (visitNbrs boundary (nbrs w h idx) (marked, rest)).1 n = true := by
        intro q hq hnotq n hn hbn
        by_cases hqi : q = idx
        · subst hqi
          exact visit_covers boundary _ _ n hn hbn
        · rcases visit_marked_queue boundary _ _ q hq with hold | hinq
          · have hqrest : q ∉ rest := fun hr => hnotq (visit_queue_mono boundary _ _ q hr)
            have hqcons : q ∉ idx :: rest := by
              intro hcons
              rcases List.mem_cons.mp hcons with rfl | hr
              · exact hqi rfl
              · exact hqrest hr
            exact visit_mono boundary _ _ n (h3 q hold hqcons n hn hbn)
          · exact absurd hinq hnotq
      have inv4 : ∀ q, q < w * h → onBorder w h q → boundary q = false →
          (visitNbrs boundary (nbrs w h idx) (marked, rest)).1 q = true :=
        fun q hq hb hnb => visit_mono boundary _ _ q (h4 q hq hb hnb)
      have hv : 2 * cardU (w * h) (visitNbrs boundary (nbrs w h idx) (marked, rest)).1 +
          (visitNbrs boundary (nbrs w h idx) (marked, rest)).2.length ≤
          2 * cardU (w * h) marked + rest.length :=
        visit_potential boundary (w * h) (nbrs w h idx) (marked, rest) hnlt
      have hphi : 2 * cardU (w * h) (visitNbrs boundary (nbrs w h idx) (marked, rest)).1 +
          (visitNbrs boundary (nbrs w h idx) (marked, rest)).2.length ≤ fuel := by
        simp only [List.length_cons] at h5
        omega
      exact ih _ _ inv1 inv2 inv3 inv4 hphi p

/-- Seeding invariant: queue members are marked and, because every mark
is accompanied by a push, marked pixels are queued. -/
def QInv (st : (Nat → Bool) × List Nat) : Prop :=
  (∀ q ∈ st.2, st.1 q = true) ∧ (∀ q, st.1 q = true → q ∈ st.2)

/-- Solid 4x4 boundary rectangle (columns 2..5, rows 2..5) centred in an
8x8 canvas, the synthetic instance of the specification. -/
def rectMask : Nat → Bool :=
  fun p => decide (2 ≤ p % 8 ∧ p % 8 ≤ 5 ∧ 2 ≤ p / 8 ∧ p / 8 ≤ 5)

theorem markQ_qinv {st : (Nat → Bool) × List Nat} (n : Nat) (h : QInv st) : QInv (markQ st n) := by
  constructor
  · intro q hq
    rcases (markQ_queue st n q).mp hq with hold | hqn
    · exact (markQ_marked st n q).mpr (Or.inr (h.1 q hold))
    · exact (markQ_marked st n q).mpr (Or.inl hqn)
  · intro q hq
    rcases (markQ_marked st n q).mp hq with hqn | hold
    · exact (markQ_queue st n q).mpr (Or.inr hqn)
    · exact (markQ_queue st n q).mpr (Or.inl (h.2 q hold))

theorem ite_markQ_qinv {c : Prop} [Decidable c] {st : (Nat → Bool) × List Nat} (n : Nat)
    (h : QInv st) : QInv (if c then markQ st n else st) := by
  by_cases hc : c
  · rw [if_pos hc]; exact markQ_qinv n h
  · rw [if_neg hc]; exact h

theorem seedTB_qinv {boundary : Nat → Bool} {w h : Nat} {st : (Nat → Bool) × List Nat} (x : Nat)
    (hq : QInv st) : QInv (seedTBStep boundary w h st x) := by
  simp only [seedTBStep]
  exact ite_markQ_qinv _ (ite_markQ_qinv _ hq)

theorem seedLR_qinv {boundary : Nat → Bool} {w : Nat} {st : (Nat → Bool) × List Nat} (y : Nat)
    (hq : QInv st) : QInv (seedLRStep boundary w st y) := by
  simp only [seedLRStep]
  exact ite_markQ_qinv _ (ite_markQ_qinv _ hq)

theorem foldl_qinv {α : Type} (f : (Nat → Bool) × List Nat → α → (Nat → Bool) × List Nat)
    (hf : ∀ st a, QInv st → QInv (f st a)) (l : List α) :
    ∀ st : (Nat → Bool) × List Nat, QInv st → QInv (l.foldl f st) := by
  induction l with
  | nil => intro st h; exact h
  | cons a as ih => intro st h; exact ih (f st a) (hf st a h)

theorem seedState_qinv (boundary : Nat → Bool) (w h : Nat) : QInv (seedState boundary w h) := by
  rw [seedState]
  apply foldl_qinv _ (fun st y hq => seedLR_qinv y hq)
  apply foldl_qinv _ (fun st x hq => seedTB_qinv x hq)
  refine ⟨fun q hq => absurd hq (List.not_mem_nil q), fun q hq => ?_⟩
  simp at hq

theorem ite_markQ_qlen (c : Prop) [Decidable c] (st : (Nat → Bool) × List Nat) (n : Nat) :
    (if c then markQ st n else st).2.length ≤ st.2.length + 1 := by
  by_cases hc : c
  · rw [if_pos hc, markQ]
    simp
  · rw [if_neg hc]
    omega

theorem seedTB_qlen (boundary : Nat → Bool) (w h : Nat) (st : (Nat → Bool) × List Nat) (x : Nat) :
    (seedTBStep boundary w h st x).2.length ≤ st.2.length + 2 := by
  simp only [seedTBStep]
  exact le_trans (ite_markQ_qlen _ _ _)
    (le_trans (Nat.add_le_add_right (ite_markQ_qlen _ _ _) 1) (by omega))

theorem seedLR_qlen (boundary : Nat → Bool) (w : Nat) (st : (Nat → Bool) × List Nat) (y : Nat) :
    (seedLRStep boundary w st y).2.length ≤ st.2.length + 2 := by
  simp only [seedLRStep]
  exact le_trans (ite_markQ_qlen _ _ _)
    (le_trans (Nat.add_le_add_right (ite_markQ_qlen _ _ _) 1) (by omega))

theorem foldl_qlen {α : Type} (f : (Nat → Bool) × List Nat → α → (Nat → Bool) × List Nat)
    (hf : ∀ st a, (f st a).2.length ≤ st.2.length + 2) (l : List α) :
    ∀ st : (Nat → Bool) × List Nat, (l.foldl f st).2.length ≤ st.2.length + 2 * l.length := by
  induction l with
  | nil => intro st; simp
  | cons a as ih =>
    intro st
    have h1 := ih (f st a)
    have h2 := hf st a
    simp only [List.foldl_cons, List.length_cons]
    omega

theorem seedState_qlen (boundary : Nat → Bool) (w h : Nat) :
    (seedState boundary w h).2.length ≤ 2 * w + 2 * h := by
  rw [seedState]
  have h1 := foldl_qlen _ (seedTB_qlen boundary w h) (List.range w) (fun _ => false, [])
  have h2 := foldl_qlen _ (seedLR_qlen boundary w) (List.range h)
    ((List.range w).foldl (seedTBStep boundary w h) (fun _ => false, []))
  simp only [List.length_range] at h1 h2
  simp only [List.length_nil] at h1
  omega

theorem ite_markQ_mono {c : Prop} [Decidable c] {st : (Nat → Bool) × List Nat} {n p : Nat}
    (h : st.1 p = true) : (if c then markQ st n else st).1 p = true := by
  by_cases hc : c
  · rw [if_pos hc]; exact (markQ_marked st n p).mpr (Or.inr h)
  · rw [if_neg hc]; exact h

theorem ite_markQ_sub {c : Prop} [Decidable c] {st : (Nat → Bool) × List Nat} {n p : Nat}
    (h : (if c then markQ st n else st).1 p = true) : st.1 p = true ∨ (c ∧ p = n) := by
  by_cases hc : c
  · rw [if_pos hc] at h
    rcases (markQ_marked st n p).mp h with h' | h'
    · exact Or.inr ⟨hc, h'⟩
    · exact Or.inl h'
  · rw [if_neg hc] at h
    exact Or.inl h

theorem ite_markQ_mem {c : Prop} [Decidable c] {st : (Nat → Bool) × List Nat} {n : Nat}
    (h : ¬ c → st.1 n = true) : (if c then markQ st n else st).1 n = true := by
  by_cases hc : c
  · rw [if_pos hc]; exact (markQ_marked st n n).mpr (Or.inl rfl)
  · rw [if_neg hc]; exact h hc

theorem seedTB_mono {boundary : Nat → Bool} {w h : Nat} {st : (Nat → Bool) × List Nat} {x p : Nat}
    (hm : st.1 p = true) : (seedTBStep boundary w h st x).1 p = true := by
  simp only [seedTBStep]
  exact ite_markQ_mono (ite_markQ_mono hm)

theorem seedLR_mono {boundary : Nat → Bool} {w : Nat} {st : (Nat → Bool) × List Nat} {y p : Nat}
    (hm : st.1 p = true) : (seedLRStep boundary w st y).1 p = true := by
  simp only [seedLRStep]
  exact ite_markQ_mono (ite_markQ_mono hm)

theorem seedTB_sub {boundary : Nat → Bool} {w h : Nat} {st : (Nat → Bool) × List Nat} {x p : Nat}
    (hm : (seedTBStep boundary w h st x).1 p = true) :
    st.1 p = true ∨ (boundary p = false ∧ (p = x ∨ p = (h - 1) * w + x)) := by
  simp only [seedTBStep] at hm
  rcases ite_markQ_sub hm with hm2 | ⟨hc, rfl⟩
  · rcases ite_markQ_sub hm2 with hm3 | ⟨hc, rfl⟩
    · exact Or.inl hm3
    · simp only [Bool.not_eq_true'] at hc
      exact Or.inr ⟨hc, Or.inl rfl⟩
  · simp only [Bool.not_eq_true'] at hc
    exact Or.inr ⟨hc, Or.inr rfl⟩

theorem seedLR_sub {boundary : Nat → Bool} {w : Nat} {st : (Nat → Bool) × List Nat} {y p : Nat}
    (hm : (seedLRStep boundary w st y).1 p = true) :
    st.1 p = true ∨ (boundary p = false ∧ (p = y * w ∨ p = y * w + (w - 1))) := by
  simp only [seedLRStep] at hm
  rcases ite_markQ_sub hm with hm2 | ⟨hc, rfl⟩
  · rcases ite_markQ_sub hm2 with hm3 | ⟨hc, rfl⟩
    · exact Or.inl hm3
    · simp only [Bool.and_eq_true, Bool.not_eq_true'] at hc
      exact Or.inr ⟨hc.1, Or.inl rfl⟩
  · simp only [Bool.and_eq_true, Bool.not_eq_true'] at hc
    exact Or.inr ⟨hc.1, Or.inr rfl⟩

theorem seedTB_mem {boundary : Nat → Bool} {w h : Nat} (st : (Nat → Bool) × List Nat) {x p : Nat}
    (hb : boundary p = false) (hp : p = x ∨ p = (h - 1) * w + x) :
    (seedTBStep boundary w h st x).1 p = true := by
  simp only [seedTBStep]
  rcases hp with rfl | rfl
  · apply ite_markQ_mono
    apply ite_markQ_mem
    intro hc
    exact absurd (by simp [hb]) hc
  · apply ite_markQ_mem
    intro hc
    exact absurd (by simp [hb]) hc

theorem seedLR_mem {boundary : Nat → Bool} {w : Nat} (st : (Nat → Bool) × List Nat) {y p : Nat}
    (hb : boundary p = false) (hp : p = y * w ∨ p = y * w + (w - 1)) :
    (seedLRStep boundary w st y).1 p = true := by
  simp only [seedLRStep]
  rcases hp with rfl | rfl
  · apply ite_markQ_mono
    apply ite_markQ_mem
    intro hc
    by_contra hne
    simp only [Bool.not_eq_true] at hne
    exact hc (by rw [hb, hne]; rfl)
  · apply ite_markQ_mem
    intro hc
    by_contra hne
    simp only [Bool.not_eq_true] at hne
    exact hc (by rw [hb, hne]; rfl)

theorem foldl_mark_mono {α : Type} {f : (Nat → Bool) × List Nat → α → (Nat → Bool) × List Nat}
    (hf : ∀ (st : (Nat → Bool) × List Nat) (a : α) (p : Nat),
      st.1 p = true → (f st a).1 p = true) (l : List α) :
    ∀ (st : (Nat → Bool) × List Nat) (p : Nat), st.1 p = true → (l.foldl f st).1 p = true := by
  induction l with
  | nil => exact fun st p hm => hm
  | cons a as ih => exact fun st p hm => ih (f st a) p (hf st a p hm)

theorem foldl_mark_sub {α : Type} {f : (Nat → Bool) × List Nat → α → (Nat → Bool) × List Nat}
    (S : α → Nat → Prop)
    (hf : ∀ st a p, (f st a).1 p = true → st.1 p = true ∨ S a p) (l : List α) :
    ∀ st p, (l.foldl f st).1 p = true → st.1 p = true ∨ ∃ a ∈ l, S a p := by
  induction l with
  | nil => exact fun st p hm => Or.inl hm
  | cons a as ih =>
    intro st p hm
    rcases ih (f st a) p hm with hm2 | ⟨b, hb, hS⟩
    · rcases hf st a p hm2 with hm3 | hS
      · exact Or.inl hm3
      · exact Or.inr ⟨a, List.mem_cons_self a as, hS⟩
    · exact Or.inr ⟨b, List.mem_cons_of_mem a hb, hS⟩

theorem foldl_mark_mem {α : Type} {f : (Nat → Bool) × List Nat → α → (Nat → Bool) × List Nat}
    (S : α → Nat → Prop)
    (hmono : ∀ st a p, st.1 p = true → (f st a).1 p = true)
    (hf : ∀ st a p, S a p → (f st a).1 p = true) (l : List α) :
    ∀ st p a, a ∈ l → S a p → (l.foldl f st).1 p = true := by
  induction l with
  | nil => intro st p a ha; exact absurd ha (List.not_mem_nil a)
  | cons b bs ih =>
    intro st p a ha hS
    rcases List.mem_cons.mp ha with rfl | ha'
    · exact foldl_mark_mono hmono bs (f st a) p (hf st a p hS)
    · exact ih (f st b) p a ha' hS

theorem seedState_marked_iff (boundary : Nat → Bool) (w h : Nat) (hw : 1 ≤ w) (hh : 1 ≤ h)
    (p : Nat) : (seedState boundary w h).1 p = true ↔
      p < w * h ∧ onBorder w h p ∧ boundary p = false := by
  have hw0 : 0 < w := hw
  rw [seedState]
  constructor
  · intro hm
    rcases foldl_mark_sub
        (fun y q => boundary q = false ∧ (q = y * w ∨ q = y * w + (w - 1)))
        (fun st y q hmk => seedLR_sub hmk) (List.range h) _ p hm with hm2 | ⟨y, hy, hby, hp⟩
    · rcases foldl_mark_sub
          (fun x q => boundary q = false ∧ (q = x ∨ q = (h - 1) * w + x))
          (fun st x q hmk => seedTB_sub hmk) (List.range w) _ p hm2 with hm3 | ⟨x, hx, hbx, hp⟩
      · simp at hm3
      · rw [List.mem_range] at hx
        rcases hp with rfl | rfl
        · have hwh : w * 1 ≤ w * h := Nat.mul_le_mul_left w hh
          exact ⟨by omega, Or.inr (Or.inr (Or.inl (Nat.div_eq_of_lt hx))), hbx⟩
        · refine ⟨row_col_lt (Nat.sub_lt hh Nat.one_pos) hx, ?_, hbx⟩
          right; right; right
          have hdv : (w * (h - 1) + x) / w = h - 1 + x / w := Nat.mul_add_div hw0 _ _
          rw [Nat.mul_comm (h - 1) w, hdv, Nat.div_eq_of_lt hx]
          omega
    · rw [List.mem_range] at hy
      rcases hp with rfl | rfl
      · have hlt := row_col_lt hy hw0
        exact ⟨by omega, Or.inl (Nat.mul_mod_left y w), hby⟩
      · refine ⟨row_col_lt hy (by omega), ?_, hby⟩
        right; left
        rw [Nat.mul_comm y w, Nat.mul_add_mod, Nat.mod_eq_of_lt (by omega)]
  · rintro ⟨hlt, hb, hnb⟩
    have hdm : p / w * w + p % w = p := by
      rw [Nat.mul_comm]
      exact Nat.div_add_mod p w
    have hmw : p % w < w := Nat.mod_lt p hw0
    have hyl : p / w < h := by
      rcases Nat.lt_or_ge (p / w) h with h' | h'
      · exact h'
      · exfalso
        have hge : h * w ≤ p / w * w := Nat.mul_le_mul_right w h'
        have hcomm : w * h = h * w := Nat.mul_comm w h
        omega
    rcases hb with hb | hb | hb | hb
    · exact foldl_mark_mem
        (fun y q => boundary q = false ∧ (q = y * w ∨ q = y * w + (w - 1)))
        (fun st a q hm => seedLR_mono hm)
        (fun st y q hS => seedLR_mem st hS.1 hS.2) (List.range h) _ p (p / w)
        (List.mem_range.mpr hyl) ⟨hnb, Or.inl (by omega)⟩
    · exact foldl_mark_mem
        (fun y q => boundary q = false ∧ (q = y * w ∨ q = y * w + (w - 1)))
        (fun st a q hm => seedLR_mono hm)
        (fun st y q hS => seedLR_mem st hS.1 hS.2) (List.range h) _ p (p / w)
        (List.mem_range.mpr hyl) ⟨hnb, Or.inr (by omega)⟩
    · rw [hb] at hdm
      have hpw : p < w := by omega
      have htb : ((List.range w).foldl (seedTBStep boundary w h) (fun _ => false, [])).1 p = true :=
        foldl_mark_mem
          (fun x q => boundary q = false ∧ (q = x ∨ q = (h - 1) * w + x))
          (fun st a q hm => seedTB_mono hm)
          (fun st x q hS => seedTB_mem st hS.1 hS.2) (List.range w) _ p p
          (List.mem_range.mpr hpw) ⟨hnb, Or.inl rfl⟩
      exact foldl_mark_mono (fun st a q hm => seedLR_mono hm) (List.range h) _ p htb
    · rw [hb] at hdm
      have htb : ((List.range w).foldl (seedTBStep boundary w h) (fun _ => false, [])).1 p = true :=
        foldl_mark_mem
          (fun x q => boundary q = false ∧ (q = x ∨ q = (h - 1) * w + x))
          (fun st a q hm => seedTB_mono hm)
          (fun st x q hS => seedTB_mem st hS.1 hS.2) (List.range w) _ p (p % w)
          (List.mem_range.mpr hmw) ⟨hnb, Or.inr hdm.symm⟩
      exact foldl_mark_mono (fun st a q hm => seedLR_mono hm) (List.range h) _ p htb

theorem classifyOutside_iff (boundary : Nat → Bool) (w h : Nat) (hw : 1 ≤ w) (hh : 1 ≤ h)
    (p : Nat) : classifyOutside boundary w h p = true ↔ Reach boundary w h p := by
  have hq := seedState_qinv boundary w h
  have hlen := seedState_qlen boundary w h
  have hiff := seedState_marked_iff boundary w h hw hh
  show floodLoop boundary w h (2 * (w * h) + 2 * w + 2 * h)
    (seedState boundary w h).1 (seedState boundary w h).2 p = true ↔ Reach boundary w h p
  refine floodLoop_spec boundary w h (2 * (w * h) + 2 * w + 2 * h)
    (seedState boundary w h).1 (seedState boundary w h).2 ?_ ?_ ?_ ?_ ?_ p
  · intro q hm
    rcases (hiff q).mp hm with ⟨hlt, hbd, hnb⟩
    exact Reach.border q hlt hbd hnb
  · exact hq.1
  · exact fun q hm hnq => absurd (hq.2 q hm) hnq
  · exact fun q hlt hbd hnb => (hiff q).mpr ⟨hlt, hbd, hnb⟩
  · have := cardU_le (w * h) (seedState boundary w h).1
    omega

/-- C3.  For every boundary mask and every (positive) image size, the
border-seeded 4-connected BFS flood fill of `processImage` marks as
outside exactly the pixels reachable from some non-boundary image-border
pixel via 4-connected steps that never enter the boundary mask; boundary
pixels are never marked (and hence enclosed pixels, which are unreachable,
are not marked either).  In particular, for the synthetic 8x8 image whose
boundary mask is the solid rectangle `rectMask` centred in the canvas,
the marked set is exactly the complement of the rectangle: every pixel
strictly outside it is marked and every pixel of it (so in particular
everything strictly inside) is not. -/
theorem c3_flood_fill (w h : Nat) (hw : 1 ≤ w) (hh : 1 ≤ h) :
    (∀ (boundary : Nat → Bool) (p : Nat),
      (classifyOutside boundary w h p = true ↔ Reach boundary w h p) ∧
      (boundary p = true → classifyOutside boundary w h p = false)) ∧
    (List.range 64).all (fun p =>
      classifyOutside rectMask 8 8 p ==
        decide (p % 8 < 2 ∨ 5 < p % 8 ∨ p / 8 < 2 ∨ 5 < p / 8)) = true := by
  constructor
  · intro boundary p
    refine ⟨classifyOutside_iff boundary w h hw hh p, ?_⟩
    intro hb
    cases hcl : classifyOutside boundary w h p with
    | false => rfl
    | true =>
      have hnb := reach_not_boundary ((classifyOutside_iff boundary w h hw hh p).mp hcl)
      rw [hb] at hnb
      exact Bool.noConfusion hnb
  · decide

/-- Witness for C3 at the concrete image size 8x8. -/
theorem c3_flood_fill_witness :
    (∀ (boundary : Nat → Bool) (p : Nat),
      (classifyOutside boundary 8 8 p = true ↔ Reach boundary 8 8 p) ∧
      (boundary p = true → classifyOutside boundary 8 8 p = false)) ∧
    (List.range 64).all (fun p =>
      classifyOutside rectMask 8 8 p ==
        decide (p % 8 < 2 ∨ 5 < p % 8 ∨ p / 8 < 2 ∨ 5 < p / 8)) = true :=
  c3_flood_fill 8 8 (by decide) (by decide)

end SmuSeats
